import Mathlib

/-
Verification of the PFSE-Prototype frequency-smoothing-encryption library.

Shallow embedding conventions:
 - plaintext messages and ciphertexts are byte lists (List Nat), matching the
   generic message type T used with AsBytes/FromBytes in the source;
 - Rust f64 arithmetic is modeled by exact rational arithmetic (Rat); the
   quantities that the source derives with f64 log2/sqrt/pi are taken as
   parameters constrained by real-valued characterizations (Real.logb etc.);
 - the AES-256-GCM + base64 layer is an external crate; it is modeled by a
   pair of functions sealf/opn parameterized over the nonce, with the AEAD
   round-trip law as a hypothesis where needed;
 - HashMap iteration order is modeled canonically by first-insertion order
   (association lists); all verified properties are order-independent;
 - Rust panics are modeled by Option none / Except error.
-/

unseal Rat.add Rat.mul Rat.sub Rat.inv Rat.ofScientific

/-- Byte strings: the byte view of a message and the transport form of a
ciphertext. -/
abbrev Bytes := List Nat

/-- Little-endian byte rendering of a 64-bit integer, as produced by
to_le_bytes on usize and u64 (64-bit target): always exactly 8 bytes. -/
def leBytes8 (x : Nat) : Bytes :=
  [x % 256, x / 256 % 256, x / 256 ^ 2 % 256, x / 256 ^ 3 % 256,
   x / 256 ^ 4 % 256, x / 256 ^ 5 % 256, x / 256 ^ 6 % 256, x / 256 ^ 7 % 256]

theorem leBytes8_length (x : Nat) : (leBytes8 x).length = 8 := rfl

/-- The fixed all-zero 12-byte nonce used by the deterministic modes. -/
def zeroNonce : Bytes := List.replicate 12 0

/-- Association-list lookup, the canonical model of HashMap::get. -/
def lookupA {β : Type} : List (Bytes × β) → Bytes → Option β
  | [], _ => none
  | (a, b) :: r, x => if a = x then some b else lookupA r x

/-- One step of histogram building: HashMap entry(x).or_insert(0) += 1
(util.rs build_histogram body). -/
def bumpHistogram : List (Bytes × Nat) → Bytes → List (Bytes × Nat)
  | [], x => [(x, 1)]
  | (a, c) :: r, x => if a = x then (a, c + 1) :: r else (a, c) :: bumpHistogram r x

/-- util.rs build_histogram: counting occurrences of each message.
The HashMap is modeled as an association list in first-insertion order. -/
def build_histogram (dataset : List Bytes) : List (Bytes × Nat) :=
  dataset.foldl bumpHistogram []

/-- Insertion step for the descending stable sort of util.rs
build_histogram_vec (sort_by rhs.1.cmp(lhs.1)). -/
def insertCountDesc (x : Bytes × Nat) : List (Bytes × Nat) → List (Bytes × Nat)
  | [] => [x]
  | y :: ys => if y.2 < x.2 then x :: y :: ys else y :: insertCountDesc x ys

/-- util.rs build_histogram_vec: histogram as a vector sorted by count,
descending, stable with respect to the association-list order. -/
def build_histogram_vec (histogram : List (Bytes × Nat)) : List (Bytes × Nat) :=
  histogram.foldl (fun acc x => insertCountDesc x acc) []

/-- util.rs compute_cdf: sum of the first index frequencies of the histogram
vector (out-of-range index yields 0 after logging). -/
def compute_cdf (index : Nat) (histogram : List (Bytes × Nat)) (num : Nat) : ℚ :=
  if histogram.length ≤ index then 0
  else ((histogram.take index).map (fun p => (p.2 : ℚ) / (num : ℚ))).sum

/-- Total count mass of a histogram slice. -/
def hist_sum (l : List (Bytes × Nat)) : Nat := (l.map (·.2)).sum

theorem hist_sum_nil : hist_sum [] = 0 := rfl

theorem hist_sum_cons (p : Bytes × Nat) (l : List (Bytes × Nat)) :
    hist_sum (p :: l) = p.2 + hist_sum l := rfl

theorem hist_sum_append (l r : List (Bytes × Nat)) :
    hist_sum (l ++ r) = hist_sum l + hist_sum r := by
  induction l with
  | nil => simp [hist_sum]
  | cons x xs ih => simp [hist_sum_cons, ih, Nat.add_assoc]

theorem bumpHistogram_sum (acc : List (Bytes × Nat)) (x : Bytes) :
    hist_sum (bumpHistogram acc x) = hist_sum acc + 1 := by
  induction acc with
  | nil => rfl
  | cons p r ih =>
    cases p with
    | mk a c =>
      by_cases h : a = x
      · simp [bumpHistogram, h, hist_sum_cons, Nat.add_assoc, Nat.add_comm 1]
      · simp only [bumpHistogram, if_neg h]
        simp [hist_sum_cons, ih, Nat.add_assoc]

theorem build_histogram_sum (dataset : List Bytes) :
    hist_sum (build_histogram dataset) = dataset.length := by
  suffices h : ∀ acc, hist_sum (dataset.foldl bumpHistogram acc) = hist_sum acc + dataset.length by
    simpa [build_histogram, hist_sum] using h []
  induction dataset with
  | nil => intro acc; simp
  | cons x xs ih =>
    intro acc
    simp only [List.foldl_cons, ih, bumpHistogram_sum, List.length_cons]
    ring

theorem insertCountDesc_sum (x : Bytes × Nat) (l : List (Bytes × Nat)) :
    hist_sum (insertCountDesc x l) = x.2 + hist_sum l := by
  induction l with
  | nil => rfl
  | cons y ys ih =>
    by_cases h : y.2 < x.2
    · simp [insertCountDesc, h, hist_sum_cons]
    · simp [insertCountDesc, h, hist_sum_cons, ih]
      ring

theorem build_histogram_vec_sum (h : List (Bytes × Nat)) :
    hist_sum (build_histogram_vec h) = hist_sum h := by
  suffices hs : ∀ acc, hist_sum (h.foldl (fun acc x => insertCountDesc x acc) acc) =
      hist_sum acc + hist_sum h by
    simpa [build_histogram_vec, hist_sum] using hs []
  induction h with
  | nil => intro acc; simp [hist_sum]
  | cons p r ih =>
    intro acc
    simp only [List.foldl_cons, ih, insertCountDesc_sum, hist_sum_cons]
    ring

theorem insertCountDesc_mem {x y : Bytes × Nat} {l : List (Bytes × Nat)}
    (h : y ∈ insertCountDesc x l) : y = x ∨ y ∈ l := by
  induction l with
  | nil => simpa [insertCountDesc] using h
  | cons z zs ih =>
    by_cases hz : z.2 < x.2
    · simp only [insertCountDesc, if_pos hz, List.mem_cons] at h
      rcases h with h | h | h
      · exact Or.inl h
      · exact Or.inr (by simp [h])
      · exact Or.inr (by simp [h])
    · simp only [insertCountDesc, if_neg hz, List.mem_cons] at h
      rcases h with h | h
      · exact Or.inr (by simp [h])
      · rcases ih h with h | h
        · exact Or.inl h
        · exact Or.inr (by simp [h])

theorem build_histogram_vec_mem {y : Bytes × Nat} {h : List (Bytes × Nat)}
    (hm : y ∈ build_histogram_vec h) : y ∈ h := by
  suffices hs : ∀ acc, y ∈ h.foldl (fun acc x => insertCountDesc x acc) acc →
      y ∈ acc ∨ y ∈ h by
    rcases hs [] hm with h1 | h1
    · cases h1
    · exact h1
  clear hm
  induction h with
  | nil => intro acc hm; exact Or.inl hm
  | cons p r ih =>
    intro acc hm
    simp only [List.foldl_cons] at hm
    rcases ih _ hm with h1 | h1
    · rcases insertCountDesc_mem h1 with h2 | h2
      · exact Or.inr (by simp [h2])
      · exact Or.inl h2
    · exact Or.inr (List.mem_cons_of_mem _ h1)

theorem mem_le_hist_sum {p : Bytes × Nat} {l : List (Bytes × Nat)}
    (h : p ∈ l) : p.2 ≤ hist_sum l := by
  induction l with
  | nil => cases h
  | cons q r ih =>
    rcases List.mem_cons.mp h with h1 | h1
    · simp [h1, hist_sum_cons]
    · exact le_trans (ih h1) (by simp [hist_sum_cons])

/-- One ciphertext-set descriptor in the PFSE local table:
(partition index, set size, repeat count) — fse.rs ValueType. -/
abbrev Val : Type := Nat × Nat × Nat

/-- The PFSE local table: message to list of ValueType entries. -/
abbrev PfseTable : Type := List (Bytes × List Val)

/-- HashMap entry(message).or_default().push(v) of pfse.rs transform, with
the canonical first-insertion order for new keys. -/
def pushEntry : PfseTable → Bytes → Val → PfseTable
  | [], m, v => [(m, [v])]
  | (a, l) :: r, m, v =>
    if a = m then (a, l ++ [v]) :: r else (a, l) :: pushEntry r m v

/-- The scheme state of pfse.rs ContextPFSE (the AES key and the database
connector live outside the embedding: the cipher is passed as a function and
the storage adapter is an external collaborator). -/
structure PfseCtx where
  isReady : Bool
  localTable : PfseTable
  pPartition : ℚ
  pScale : ℚ
  pAdvantage : ℚ
  partitionFunc : Option (ℚ → Nat → ℚ)
  messageNum : Nat
  partitions : List (List (Bytes × Nat))

/-- ContextPFSE::default(). -/
def pfseDefault : PfseCtx :=
  { isReady := false, localTable := [], pPartition := 0, pScale := 0,
    pAdvantage := 0, partitionFunc := none, messageNum := 0, partitions := [] }

/-- pfse.rs set_params (parameter-vector length check omitted: the embedding
passes the three parameters directly). -/
def pfse_set_params (ctx : PfseCtx) (p0 p1 p2 : ℚ) : PfseCtx :=
  { ctx with pPartition := p0, pScale := p1, pAdvantage := p2, isReady := true }

/-- The AEAD plaintext built by pfse.rs encrypt_impl:
bytes(m), 0x7C, le(partition index), 0x7C, le(inner index). -/
def pfse_token (m : Bytes) (index j : Nat) : Bytes :=
  m ++ [124] ++ leBytes8 index ++ [124] ++ leBytes8 j

/-- pfse.rs ContextPFSE::encrypt_impl. seal models AES-256-GCM encryption
followed by base64 encoding, at a given nonce (a valid 32-byte key is
assumed, so the construction of the AES context cannot fail). -/
def encrypt_impl (sealf : Bytes → Bytes → Bytes) (table : PfseTable)
    (message : Bytes) (rep : Bool) : Option (List Bytes) :=
  match lookupA table message with
  | none => none
  | some value =>
    some (value.flatMap (fun v =>
      (List.range v.2.1).flatMap (fun j =>
        let ct := sealf zeroNonce (pfse_token message v.1 j)
        if rep then List.replicate v.2.2 ct else [ct])))

/-- BaseCrypto::encrypt for ContextPFSE: encrypt_impl with repeat = false. -/
def pfse_encrypt (sealf : Bytes → Bytes → Bytes) (table : PfseTable)
    (message : Bytes) : Option (List Bytes) :=
  encrypt_impl sealf table message false

/-- pfse.rs ContextPFSE::decrypt: base64-decode and AEAD-open with the zero
nonce (both modeled by opn), then truncate the trailing
2 * sizeof(usize) + 2 = 18 suffix bytes. -/
def pfse_decrypt (opn : Bytes → Bytes → Option Bytes) (ciphertext : Bytes) :
    Option Bytes :=
  (opn zeroNonce ciphertext).map (fun pt => pt.take (pt.length - 18))

/-- The inner cursor loop of pfse.rs partition:
while j < len and sum < value, add the frequency of the next entry.
Returns (consumed entries, final sum, remaining entries). -/
def innerTake (value : ℚ) (n : Nat) : ℚ → List (Bytes × Nat) →
    List (Bytes × Nat) × ℚ × List (Bytes × Nat)
  | s, [] => ([], s, [])
  | s, x :: xs =>
    if s < value then
      let r := innerTake value n (s + (x.2 : ℚ) / (n : ℚ)) xs
      (x :: r.1, r.2.1, r.2.2)
    else ([], s, x :: xs)

/-- Re-insertion of the split-off second part into the histogram vector,
keeping descending order (pfse.rs partition: binary_search_by with the
comparator second.cmp(freq), insertion at the found position; modeled by the
canonical first position whose count is at most the inserted count). -/
def insert_desc (x : Bytes × Nat) : List (Bytes × Nat) → List (Bytes × Nat)
  | [] => [x]
  | y :: ys => if y.2 ≤ x.2 then x :: y :: ys else y :: insert_desc x ys

/-- The outer loop of pfse.rs partition, with explicit fuel for the group
counter (the source terminates because the exponential partition function
decays below 1/n; an arbitrary partition function need not terminate, so a
run that exhausts the fuel yields none). none is never a proof of anything:
every theorem about this loop is conditioned on a some result. -/
def partitionLoop (pf : Nat → ℚ) (n : Nat) :
    Nat → Nat → List (Bytes × Nat) → Option (List (List (Bytes × Nat)))
  | _, _, [] => some []
  | 0, _, _ :: _ => none
  | fuel + 1, group, x :: xs =>
    let value := pf group
    if value * (n : ℚ) ≤ 1 then some [x :: xs]
    else
      let r := innerTake value n 0 (x :: xs)
      if value < r.2.1 then
        match r.1.getLast? with
        | none => none
        | some last =>
          let diff := r.2.1 - value
          let firstPart : Nat := (Int.ceil ((last.2 : ℚ) * (1 - diff))).toNat
          let secondPart : Nat := (Int.floor ((last.2 : ℚ) * diff)).toNat
          let part := r.1.dropLast ++ [(last.1, firstPart)]
          let rest :=
            if secondPart ≠ 0 then insert_desc (last.1, secondPart) r.2.2
            else r.2.2
          (partitionLoop pf n fuel (group + 1) rest).map (part :: ·)
      else
        (partitionLoop pf n fuel (group + 1) r.2.2).map (r.1 :: ·)

/-- pfse.rs ContextPFSE::partition: store the partition function, panic with
"context not ready" unless set_params ran, then build the descending
histogram of the input and cut it into partitions. Panics are Except.error;
Option none inside is fuel exhaustion of the embedded loop. -/
def pfse_partition (fuel : Nat) (ctx : PfseCtx) (input : List Bytes)
    (partition_func : ℚ → Nat → ℚ) : Except String (Option PfseCtx) :=
  let ctx1 := { ctx with partitionFunc := some partition_func }
  if ctx1.isReady = false then Except.error "[-] Context not ready."
  else
    let n := input.length
    let histogram_vec := build_histogram_vec (build_histogram input)
    let pf := fun g => partition_func ctx1.pPartition g * ctx1.pScale
    Except.ok ((partitionLoop pf n fuel 1 histogram_vec).map (fun parts =>
      { ctx1 with messageNum := n, partitions := ctx1.partitions ++ parts }))

/-- Partition::max_freq: frequency of the first member relative to the
message mass of the partition; panics (none) on an empty partition. -/
def partMaxFreq (p : List (Bytes × Nat)) : Option ℚ :=
  match p with
  | [] => none
  | h :: _ => some ((h.2 : ℚ) / (hist_sum p : ℚ))

/-- The per-partition body of pfse.rs transform. Returns the transformed
partition (with appended dummies) and the updated local table. dummy t is
the t-th freshly sampled random 32-byte message of this partition. -/
def transformPart (pf : ℚ → Nat → ℚ) (lam k n adv : ℚ)
    (dummy : Nat → Bytes) (index : Nat) (part : List (Bytes × Nat))
    (table : PfseTable) : List (Bytes × Nat) × PfseTable :=
  let f_i := (part.map (fun e => ((e.2 : ℚ) / n) ^ 2)).sum
  let cur_func := pf lam (index + 1)
  let k_prime_one := cur_func / k
  let k_prime_one_reciprocal := 1 / k_prime_one
  let n_i : Nat := (Int.ceil (n * f_i / adv)).toNat
  let table2 := part.foldl (fun t e =>
    pushEntry t e.1
      (index, (Int.ceil (k_prime_one * (e.2 : ℚ))).toNat,
        (round k_prime_one_reciprocal).toNat)) table
  let sum : Nat := (part.map (fun e => (Int.ceil (k_prime_one * (e.2 : ℚ))).toNat)).sum
  let delta : Nat := n_i - sum
  let dums := (List.range (delta - sum)).map (fun t =>
    (dummy t, (Int.ceil k_prime_one_reciprocal).toNat))
  (part ++ dums, table2)

/-- Fold of transformPart over the enumerated partitions. -/
def transformGo (pf : ℚ → Nat → ℚ) (lam k n adv : ℚ)
    (dummy : Nat → Nat → Bytes) :
    Nat → List (List (Bytes × Nat)) → PfseTable →
    List (List (Bytes × Nat)) × PfseTable
  | _, [], table => ([], table)
  | index, part :: rest, table =>
    let r := transformPart pf lam k n adv (dummy index) index part table
    let rr := transformGo pf lam k n adv dummy (index + 1) rest r.2
    (r.1 :: rr.1, rr.2)

/-- pfse.rs ContextPFSE::transform. none models a panic (first().unwrap()
on an empty partition in max_freq, or partition_func.unwrap() with no
partition function while partitions exist). Note there is no readiness
check. dummy i t is the t-th random dummy drawn in partition i. -/
def pfse_transform (ctx : PfseCtx) (dummy : Nat → Nat → Bytes) :
    Option PfseCtx :=
  let k : ℚ := (ctx.partitions.length : ℚ)
  let n : ℚ := (ctx.messageNum : ℚ)
  match ctx.partitions.mapM partMaxFreq with
  | none => none
  | some freqs =>
    let baseline := freqs.sum
    let adv := ctx.pAdvantage * baseline
    match ctx.partitions, ctx.partitionFunc with
    | [], _ => some { ctx with pAdvantage := adv }
    | _ :: _, none => none
    | parts@(_ :: _), some pf =>
      let r := transformGo pf ctx.pPartition k n adv dummy 0 parts ctx.localTable
      some { ctx with pAdvantage := adv, partitions := r.1, localTable := r.2 }

/-- The member scan of pfse.rs smooth, carrying the visited set. Members
absent from the local table (the dummies) contribute repeat copies of their
raw bytes. Note the source calls self.encrypt, i.e. encrypt_impl with
repeat = false. -/
def smoothMembers (sealf : Bytes → Bytes → Bytes) (table : PfseTable) :
    List (Bytes × Nat) → List Bytes → List Bytes
  | [], _ => []
  | (m, cnt) :: rest, visited =>
    if m ∈ visited then smoothMembers sealf table rest visited
    else
      (match pfse_encrypt sealf table m with
       | some c => c
       | none => List.replicate cnt m) ++ smoothMembers sealf table rest (m :: visited)

/-- pfse.rs ContextPFSE::smooth: visit every member of every partition once
and concatenate its ciphertexts. -/
def pfse_smooth (sealf : Bytes → Bytes → Bytes) (ctx : PfseCtx) : List Bytes :=
  smoothMembers sealf ctx.localTable ctx.partitions.flatten []

/-- The AEAD plaintext built by both LPFSE encoders:
bytes(m), 0x7C, le(homophone tag). -/
def encoder_token (m : Bytes) (tag : Nat) : Bytes :=
  m ++ [124] ++ leBytes8 tag

/-- The IHBE local-table value: (count, interval start, interval end),
the interval being the half-open range of homophone tags. -/
abbrev IbheKey : Type := Nat × Nat × Nat

/-- lpfse.rs EncoderIHBE::adjust_distribution (Variant 2). The state
carries the current index, the is_big_enough flag, the scale factor, and
the cumulative frequency of the already-processed prefix divided by n
(which is what compute_cdf(i, histogram, n) reads: the update of entry i
never changes that prefix, so cdf_prev and cdf_cur coincide). r is the
f64 bit-length parameter of the source, embedded as an integer. -/
def adjustGo (n : Nat) (pow2_r pow2_rplus1 : ℚ) :
    Nat → Bool → ℚ → ℚ → List (Bytes × Nat) → List (Bytes × Nat)
  | _, _, _, _, [] => []
  | i, big, scale, pre, (m, c) :: rest =>
    let cur_frequency : ℚ := (c : ℚ) / (n : ℚ)
    if i = 1 then
      if cur_frequency < pow2_rplus1 then
        let c2 : Nat := (Int.ceil (pow2_rplus1 * (n : ℚ))).toNat
        let scale2 := (1 - cur_frequency) / (1 - pow2_rplus1)
        (m, c2) :: adjustGo n pow2_r pow2_rplus1 (i + 1) big scale2
          (pre + (c2 : ℚ) / (n : ℚ)) rest
      else
        (m, c) :: adjustGo n pow2_r pow2_rplus1 (i + 1) big scale
          (pre + cur_frequency) rest
    else if big then
      let c2 : Nat := (Int.ceil ((c : ℚ) / scale)).toNat
      (m, c2) :: adjustGo n pow2_r pow2_rplus1 (i + 1) big scale
        (pre + (c2 : ℚ) / (n : ℚ)) rest
    else if pow2_r * scale ≤ cur_frequency then
      let c2 : Nat := (Int.ceil ((c : ℚ) / scale)).toNat
      (m, c2) :: adjustGo n pow2_r pow2_rplus1 (i + 1) true scale
        (pre + (c2 : ℚ) / (n : ℚ)) rest
    else
      let cdf_prev := pre
      let c2 : Nat := (Int.ceil ((c : ℚ) * pow2_r)).toNat
      let cdf_cur := pre
      let scale2 := (1 - cdf_prev) / (1 - cdf_cur)
      (m, c2) :: adjustGo n pow2_r pow2_rplus1 (i + 1) big scale2
        (pre + (c2 : ℚ) / (n : ℚ)) rest

/-- lpfse.rs adjust_distribution entry point: index 0, scale factor 1,
is_big_enough false. -/
def adjust_distribution (histogram : List (Bytes × Nat)) (n : Nat) (r : ℤ) :
    List (Bytes × Nat) :=
  adjustGo n (1 / (2 : ℚ) ^ r) (1 / (2 : ℚ) ^ (r + 1)) 0 false 1 0 histogram

/-- The cumulative-frequency vector of lpfse.rs EncoderIHBE::initialize:
a leading 0 followed by the running sums count/n. -/
def cumFreqs (n : Nat) : ℚ → List (Bytes × Nat) → List ℚ
  | s, [] => [s]
  | s, (_, c) :: rest => s :: cumFreqs n (s + (c : ℚ) / (n : ℚ)) rest

/-- Rounded interval endpoint: round(2^r * cdf) as u64 (saturating at 0,
which never triggers because the cdf values are nonnegative). -/
def ihbeBound (pow2_r q : ℚ) : Nat := (round (pow2_r * q)).toNat

/-- The local-table construction loop of EncoderIHBE::initialize: entry i
receives the interval from cumulative_frequency[i] to
cumulative_frequency[i+1], scaled by 2^r and rounded. -/
def ihbeZip (pow2_r : ℚ) :
    List (Bytes × Nat) → List ℚ → List (Bytes × IbheKey)
  | [], _ => []
  | (m, c) :: hs, q0 :: q1 :: qs =>
    (m, (c, ihbeBound pow2_r q0, ihbeBound pow2_r q1)) ::
      ihbeZip pow2_r hs (q1 :: qs)
  | _ :: _, _ => []

/-- lpfse.rs EncoderIHBE::initialize given the bit length r (the source
computes r from n, the advantage and the least frequency with f64 log2 and
sqrt; the relation is captured by ihbeRSpec). An empty training sample
returns early and leaves the previous table. -/
def ihbe_init (old : List (Bytes × IbheKey)) (messages : List Bytes)
    (r : ℤ) : List (Bytes × IbheKey) :=
  if messages = [] then old
  else
    let n := messages.length
    let histogram_vec := build_histogram_vec (build_histogram messages)
    let adjusted := adjust_distribution histogram_vec n r
    ihbeZip ((2 : ℚ) ^ r) adjusted (cumFreqs n 0 adjusted)

/-- The least frequency f_D(m_1) read by EncoderIHBE::initialize:
count of the last (least frequent) entry of the histogram vector over n. -/
def ihbeFmin (messages : List Bytes) : ℚ :=
  (((build_histogram_vec (build_histogram messages)).getLastD ([], 0)).2 : ℚ) /
    (messages.length : ℚ)

/-- The f64 computation of r in EncoderIHBE::initialize:
r = ceil(log2(sqrt(n) / (2 * sqrt(2 * pi) * advantage * f_min))). -/
def ihbeRSpec (messages : List Bytes) (advantage : ℝ) (r : ℤ) : Prop :=
  r = Int.ceil (Real.logb 2 (Real.sqrt (messages.length) /
    (2 * Real.sqrt (2 * Real.pi) * advantage * ((ihbeFmin messages : ℚ) : ℝ))))

/-- lpfse.rs EncoderIHBE::encode_all: every homophone tag of the interval. -/
def ihbe_encode_all (table : List (Bytes × IbheKey)) (message : Bytes) :
    Option (List Bytes) :=
  (lookupA table message).map (fun v =>
    (List.range (v.2.2 - v.2.1)).map (fun k => encoder_token message (v.2.1 + k)))

/-- lpfse.rs EncoderIHBE::decode: strip the trailing
sizeof(usize) + 1 = 9 bytes. -/
def ihbe_decode (message : Bytes) : Option Bytes :=
  some (message.take (message.length - 9))

/-- The state of lpfse.rs EncoderBHE: band length, band width, local table
message -> (count, tags used so far), message number. -/
structure BheState where
  length : Nat
  width : ℚ
  table : List (Bytes × (Nat × List Nat))
  messageNum : Nat

/-- EncoderBHE::new(). -/
def bheFresh : BheState :=
  { length := 0, width := 0, table := [], messageNum := 0 }

/-- max_by on the histogram values: the largest count. -/
def bheFmax (messages : List Bytes) : Nat :=
  (build_histogram messages).foldl (fun a p => max a p.2) 0

/-- The f64 computation log2 = ceil(log2(n / ((2 * advantage)^2 * pi))) of
EncoderBHE::initialize; the usize cast saturates negatives at 0. -/
def bheLSpec (messages : List Bytes) (advantage : ℝ) (lv : ℤ) : Prop :=
  lv = Int.ceil (Real.logb 2 ((messages.length : ℝ) /
    ((2 * advantage) ^ 2 * Real.pi)))

/-- lpfse.rs EncoderBHE::initialize given the integer value lv of the f64
ceil(log2(...)) (see bheLSpec); `as usize` saturates it at 0 and
checked_sub(1) fails softly when it is 0, leaving everything but
message_num unchanged. -/
def bhe_init (old : BheState) (messages : List Bytes) (lv : ℤ) : BheState :=
  if messages = [] then old
  else
    let histogram := build_histogram messages
    let most_frequent := bheFmax messages
    let mnum := messages.length
    let log2 : Nat := lv.toNat
    if log2 = 0 then { old with messageNum := mnum }
    else
      { length := log2 - 1,
        width := (most_frequent : ℚ) / ((mnum : ℚ) * (2 : ℚ) ^ (log2 - 1)),
        table := histogram.map (fun p => (p.1, (p.2, []))),
        messageNum := mnum }

/-- lpfse.rs EncoderBHE::encode_all: band = ceil(count / (width * n)),
tags 0..band. -/
def bhe_encode_all (st : BheState) (message : Bytes) : Option (List Bytes) :=
  (lookupA st.table message).map (fun v =>
    let band : Nat :=
      (Int.ceil ((v.1 : ℚ) / (st.width * (st.messageNum : ℚ)))).toNat
    (List.range band).map (fun tag => encoder_token message tag))

/-- lpfse.rs EncoderBHE::decode: strip the trailing
sizeof(u64) + 1 = 9 bytes. -/
def bhe_decode (message : Bytes) : Option Bytes :=
  some (message.take (message.length - 9))

/-- lpfse.rs ContextLPFSE::encrypt at a chosen homophone token (the encoder
samples the tag; the token is passed explicitly): seal with the zero nonce
and base64-encode, a singleton list. -/
def lpfse_encrypt (sealf : Bytes → Bytes → Bytes) (token : Bytes) : List Bytes :=
  [sealf zeroNonce token]

/-- lpfse.rs ContextLPFSE::decrypt: base64-decode and AEAD-open with the
zero nonce, then strip the homophone suffix with the encoder. -/
def lpfse_decrypt (opn : Bytes → Bytes → Option Bytes)
    (decode : Bytes → Option Bytes) (ciphertext : Bytes) : Option Bytes :=
  (opn zeroNonce ciphertext).bind decode

/-- The state of native.rs ContextNative: the rnd flag and the nonce table
(key and connector are external, as for PFSE). -/
structure NativeCtx where
  rnd : Bool
  localTable : List (Bytes × List Bytes)

/-- Nonce-list push of native.rs encrypt (rnd mode):
local_table.entry(m).or_default().push(buf). -/
def pushNonce : List (Bytes × List Bytes) → Bytes → Bytes →
    List (Bytes × List Bytes)
  | [], m, buf => [(m, [buf])]
  | (a, l) :: r, m, buf =>
    if a = m then (a, l ++ [buf]) :: r else (a, l) :: pushNonce r m buf

/-- native.rs ContextNative::encrypt. In rnd mode the fresh random 12-byte
nonce is the parameter nonceBuf and is recorded in the local table; in
deterministic mode the zero nonce is used. Returns the updated context and
the singleton ciphertext list. -/
def native_encrypt (sealf : Bytes → Bytes → Bytes) (ctx : NativeCtx)
    (nonceBuf : Bytes) (message : Bytes) : NativeCtx × List Bytes :=
  if ctx.rnd then
    ({ ctx with localTable := pushNonce ctx.localTable message nonceBuf },
      [sealf nonceBuf message])
  else (ctx, [sealf zeroNonce message])

/-- native.rs ContextNative::decrypt: base64-decode and AEAD-open with the
zero nonce, unconditionally, also in rnd mode. -/
def native_decrypt (opn : Bytes → Bytes → Option Bytes) (ciphertext : Bytes) :
    Option Bytes :=
  opn zeroNonce ciphertext

/-- native.rs ContextNative::search, cut at the storage boundary: the
Except value is the ciphertext list handed to search_impl, and
Except.error models the panic of local_table.get(message).unwrap() in rnd
mode when the message was never passed to encrypt. -/
def native_search (sealf : Bytes → Bytes → Bytes) (ctx : NativeCtx)
    (message : Bytes) : Except String (List Bytes) :=
  if ctx.rnd then
    match lookupA ctx.localTable message with
    | none => Except.error "called Option::unwrap() on a None value"
    | some nonces => Except.ok (nonces.map (fun nc => sealf nc message))
  else Except.ok [sealf zeroNonce message]

/-- Lexicographic order on byte strings (Ord of Vec<u8>), as a Boolean. -/
def bytesLe : Bytes → Bytes → Bool
  | [], _ => true
  | _ :: _, [] => false
  | a :: xs, b :: ys =>
    if a < b then true else if b < a then false else bytesLe xs ys

/-- Ascending insertion for the sort() calls inside util.rs intersect. -/
def insertAsc (x : Bytes) : List Bytes → List Bytes
  | [] => [x]
  | y :: ys => if bytesLe x y then x :: y :: ys else y :: insertAsc x ys

/-- Ascending sort of a byte-string vector (Vec::sort). -/
def sortBytes (l : List Bytes) : List Bytes :=
  l.foldl (fun acc x => insertAsc x acc) []

/-- The step function of the double-pointer scan of util.rs intersect on
two sorted vectors; the inner advancing while-loops are unrolled into
single steps, which performs the same comparisons and produces the same
output. Each step shortens the combined length by at least one, so a fuel
of the combined length never runs out before a side is exhausted. -/
def interScan : Nat → List Bytes → List Bytes → List Bytes
  | 0, _, _ => []
  | _ + 1, [], _ => []
  | _ + 1, _ :: _, [] => []
  | fuel + 1, a :: xs, b :: ys =>
    if a = b then a :: interScan fuel xs ys
    else if bytesLe a b then interScan fuel xs (b :: ys)
    else interScan fuel (a :: xs) ys

/-- The double-pointer scan, run with enough fuel for the whole scan. -/
def intersectSorted (l r : List Bytes) : List Bytes :=
  interScan (l.length + r.length) l r

/-- util.rs intersect: sort both sides, then the double-pointer scan. -/
def intersect (lhs rhs : List Bytes) : List Bytes :=
  intersectSorted (sortBytes lhs) (sortBytes rhs)

/-- util.rs pad_auxiliary: when the auxiliary histogram is shorter than the
ciphertext histogram, append dummies (random 32-byte message, weight 10e-8,
count 1) until the lengths match. The Rust literal 10e-8 is the rational
1/10000000 (1e-7). dummy t is the t-th random message drawn. -/
def pad_auxiliary (dummy : Nat → Bytes) (auxiliary : List (Bytes × ℚ × Nat))
    (ciphertexts : List (Bytes × Nat)) : List (Bytes × ℚ × Nat) :=
  if auxiliary.length < ciphertexts.length then
    auxiliary ++ (List.range (ciphertexts.length - auxiliary.length)).map
      (fun t => (dummy t, 1 / 10000000, 1))
  else auxiliary

/-- attack.rs LpAttacker::attack auxiliary construction: one entry
(message, count / size, count) per local-table ValueType. -/
def lp_build_auxiliary (table : PfseTable) : List (Bytes × ℚ × Nat) :=
  table.flatMap (fun p =>
    p.2.map (fun v => (p.1, (v.2.2 : ℚ) / (v.2.1 : ℚ), v.2.2)))

/-- Stable descending insertion by weight (sort_by with partial_cmp on the
weights; the comparison is total on rationals). -/
def insertWeightDesc (x : Bytes × ℚ × Nat) :
    List (Bytes × ℚ × Nat) → List (Bytes × ℚ × Nat)
  | [] => [x]
  | y :: ys => if y.2.1 < x.2.1 then x :: y :: ys else y :: insertWeightDesc x ys

/-- The descending stable sort of the lp auxiliary list. -/
def lp_sort_auxiliary (l : List (Bytes × ℚ × Nat)) : List (Bytes × ℚ × Nat) :=
  l.foldl (fun acc x => insertWeightDesc x acc) []

/-- attack.rs LpAttacker::build_cost_matrix: empty on length mismatch
(after the error log), else the square matrix (aux_count - ct_count)^p. -/
def lp_build_cost_matrix (p : Nat) (auxiliary : List (Bytes × ℚ × Nat))
    (ciphertexts : List (Bytes × Nat)) : List (List ℤ) :=
  if auxiliary.length ≠ ciphertexts.length then []
  else auxiliary.map (fun a => ciphertexts.map (fun c =>
    ((a.2.2 : ℤ) - (c.2 : ℤ)) ^ p))

/-- The summation loop of attack.rs LpAttacker::get_recovery_rate over the
enumerated assignment. A message absent from the correct mapping is skipped
by the if-let; a ciphertext weight missing from the weight map is an
unwrap panic (Except.error). -/
def lp_get_recovery_go (correct : List (Bytes × List Bytes))
    (auxiliary : List (Bytes × ℚ × Nat)) (ciphertexts : List (Bytes × Nat))
    (wmap : List (Bytes × ℚ)) (message_num : Nat) :
    List Nat → Nat → Except String ℚ
  | [], _ => Except.ok 0
  | j :: rest, i =>
    match auxiliary.get? i with
    | none => Except.error "called Option::unwrap() on a None value"
    | some a =>
      match ciphertexts.get? j with
      | none => Except.error "called Option::unwrap() on a None value"
      | some c =>
        match lookupA correct a.1 with
        | none => lp_get_recovery_go correct auxiliary ciphertexts wmap
            message_num rest (i + 1)
        | some value =>
          match lookupA wmap c.1 with
          | none => Except.error "called Option::unwrap() on a None value"
          | some w =>
            (lp_get_recovery_go correct auxiliary ciphertexts wmap
              message_num rest (i + 1)).map
              (fun s => ((value.count c.1 : ℚ) * w *
                ((a.2.2 : ℚ) / (message_num : ℚ))) + s)

/-- attack.rs LpAttacker::get_recovery_rate. -/
def lp_get_recovery_rate (correct : List (Bytes × List Bytes))
    (auxiliary : List (Bytes × ℚ × Nat)) (ciphertexts : List (Bytes × Nat))
    (wmap : List (Bytes × ℚ)) (assignment : List Nat) : Except String ℚ :=
  let message_num := (auxiliary.map (·.2.2)).sum
  lp_get_recovery_go correct auxiliary ciphertexts wmap message_num assignment 0

/-- attack.rs LpAttacker::attack, with the external pathfinding crate
kuhn_munkres_min abstracted by the parameter km that maps the cost matrix
to the assignment vector. -/
def lp_attack (km : List (List ℤ) → List Nat) (p : Nat)
    (dummy : Nat → Bytes) (correct : List (Bytes × List Bytes))
    (table : PfseTable) (raw : List Bytes) (wmap : List (Bytes × ℚ)) :
    Except String ℚ :=
  let auxiliary0 := lp_sort_auxiliary (lp_build_auxiliary table)
  let ciphertexts := build_histogram_vec (build_histogram raw)
  let auxiliary := pad_auxiliary dummy auxiliary0 ciphertexts
  let cost := lp_build_cost_matrix p auxiliary ciphertexts
  lp_get_recovery_rate correct auxiliary ciphertexts wmap (km cost)

/-- attack.rs MLEAttacker::attack auxiliary construction:
(message, set size, count) per local-table ValueType. -/
def mle_build_auxiliary (table : PfseTable) : List (Bytes × Nat × Nat) :=
  table.flatMap (fun p => p.2.map (fun v => (p.1, v.2.1, v.2.2)))

/-- Stable descending insertion by count / size for the MLE sort. -/
def insertRatioDesc (x : Bytes × Nat × Nat) :
    List (Bytes × Nat × Nat) → List (Bytes × Nat × Nat)
  | [] => [x]
  | y :: ys =>
    if ((y.2.2 : ℚ) / (y.2.1 : ℚ)) < ((x.2.2 : ℚ) / (x.2.1 : ℚ)) then
      x :: y :: ys
    else y :: insertRatioDesc x ys

/-- The descending stable sort of the MLE auxiliary list. -/
def mle_sort_auxiliary (l : List (Bytes × Nat × Nat)) :
    List (Bytes × Nat × Nat) :=
  l.foldl (fun acc x => insertRatioDesc x acc) []

/-- The greedy block-assignment loop of attack.rs MLEAttacker::attack:
while i < |ciphertexts|, read the next auxiliary entry (unwrap panics once
the auxiliary list is exhausted), slice the next set_size ciphertext keys
(a slice past the end panics), and advance. -/
def mle_assign_go (ciphertexts : List (Bytes × Nat)) :
    List (Bytes × Nat × Nat) → Nat → Nat →
    Except String (List (Nat × List Bytes))
  | rest, cur, i =>
    if i < ciphertexts.length then
      match rest with
      | [] => Except.error "called Option::unwrap() on a None value"
      | a :: rest2 =>
        if i + a.2.1 ≤ ciphertexts.length then
          (mle_assign_go ciphertexts rest2 (cur + 1) (i + a.2.1)).map
            (fun l => (cur, ((ciphertexts.drop i).take a.2.1).map (·.1)) :: l)
        else Except.error "range end index out of range for slice"
    else Except.ok []

/-- attack.rs MLEAttacker::get_recovery_rate: for each assignment entry,
look up the auxiliary entry and the correct ciphertext set (unwrap panics
when the message is absent), intersect, and add message and ciphertext
weights (the weight lookup unwrap panics when a common ciphertext is
missing from the weight map). -/
def mle_get_recovery_rate (message_num : Nat)
    (correct : List (Bytes × List Bytes))
    (auxiliary : List (Bytes × Nat × Nat)) (wmap : List (Bytes × ℚ)) :
    List (Nat × List Bytes) → Except String ℚ
  | [] => Except.ok 0
  | e :: rest =>
    match auxiliary.get? e.1 with
    | none => Except.error "called Option::unwrap() on a None value"
    | some a =>
      match lookupA correct a.1 with
      | none => Except.error "called Option::unwrap() on a None value"
      | some correct_ciphertexts =>
        let common := intersect e.2 correct_ciphertexts
        match common.mapM (lookupA wmap) with
        | none => Except.error "called Option::unwrap() on a None value"
        | some ws =>
          (mle_get_recovery_rate message_num correct auxiliary wmap rest).map
            (fun s => ((a.2.2 : ℚ) / (message_num : ℚ)) * ws.sum + s)

/-- attack.rs MLEAttacker::attack. -/
def mle_attack (correct : List (Bytes × List Bytes)) (table : PfseTable)
    (raw : List Bytes) (wmap : List (Bytes × ℚ)) : Except String ℚ :=
  let auxiliary0 := mle_build_auxiliary table
  let message_num := (auxiliary0.map (·.2.2)).sum
  let auxiliary := mle_sort_auxiliary auxiliary0
  let ciphertexts := build_histogram_vec (build_histogram raw)
  (mle_assign_go ciphertexts auxiliary 0 0).bind
    (mle_get_recovery_rate message_num correct auxiliary wmap)

/-- A concrete instance of the AEAD + base64 layer used by witnesses and
counterexamples: sealing prepends the nonce and a separator byte, opening
checks them (modeling AEAD authenticity: opening with a wrong nonce
fails). -/
def cseal (nonce pt : Bytes) : Bytes := nonce ++ [88] ++ pt

/-- Opening for cseal: succeeds exactly on ciphertexts sealed under the
same nonce. -/
def copn (nonce ct : Bytes) : Option Bytes :=
  if ct.take (nonce.length + 1) = nonce ++ [88] then
    some (ct.drop (nonce.length + 1))
  else none

theorem copn_cseal (nonce x : Bytes) : copn nonce (cseal nonce x) = some x := by
  have hl : (nonce ++ [88]).length = nonce.length + 1 := by simp
  have htake : (cseal nonce x).take (nonce.length + 1) = nonce ++ [88] := by
    have := List.take_left (nonce ++ [88]) x
    simpa [cseal, hl, List.append_assoc] using this
  have hdrop : (cseal nonce x).drop (nonce.length + 1) = x := by
    have := List.drop_left (nonce ++ [88]) x
    simpa [cseal, hl, List.append_assoc] using this
  simp [copn, htake, hdrop]

/-- Claim C10: for the randomized baseline (ContextNative with rnd = true),
search on a message that was never encrypted panics on the
local-table lookup (local_table.get(message).unwrap()) instead of
returning None or an empty result. -/
theorem c10_native_search_panics (sealf : Bytes → Bytes → Bytes)
    (ctx : NativeCtx) (m : Bytes) (hr : ctx.rnd = true)
    (hl : lookupA ctx.localTable m = none) :
    native_search sealf ctx m =
      Except.error "called Option::unwrap() on a None value" := by
  simp [native_search, hr, hl]

/-- Witness for C10 at a concrete fresh rnd context and message. -/
theorem c10_native_search_panics_witness :
    native_search cseal { rnd := true, localTable := [] } [42] =
      Except.error "called Option::unwrap() on a None value" :=
  c10_native_search_panics cseal { rnd := true, localTable := [] } [42]
    rfl rfl

/-- Counterexample for claim C7: the dummy entries appended by
pad_auxiliary carry weight 10e-8 = 1/10000000, not 1e-8 = 1/100000000 as
the claim states. -/
theorem c7_pad_weight_counterexample :
    pad_auxiliary (fun t => [t]) [] [([0], 1)] = [([0], 1 / 10000000, 1)] ∧
    (1 / 10000000 : ℚ) ≠ 1 / 100000000 := by
  constructor
  · decide
  · decide

/-- Claim C7 (amended): whenever the auxiliary list is shorter than the
ciphertext histogram, pad_auxiliary appends dummy entries
(random message, weight 10e-8 = 1e-7, count 1) until the lengths are
equal, keeping the original entries as a prefix; when the auxiliary list
is at least as long, it is returned unchanged. -/
theorem c7_pad (dummy : Nat → Bytes) (auxiliary : List (Bytes × ℚ × Nat))
    (ciphertexts : List (Bytes × Nat)) :
    (auxiliary.length < ciphertexts.length →
      (pad_auxiliary dummy auxiliary ciphertexts).length = ciphertexts.length ∧
      (pad_auxiliary dummy auxiliary ciphertexts).take auxiliary.length = auxiliary ∧
      ∀ e ∈ (pad_auxiliary dummy auxiliary ciphertexts).drop auxiliary.length,
        ∃ t, e = (dummy t, 1 / 10000000, 1)) ∧
    (ciphertexts.length ≤ auxiliary.length →
      pad_auxiliary dummy auxiliary ciphertexts = auxiliary) := by
  constructor
  · intro h
    refine ⟨?_, ?_, ?_⟩
    · simp [pad_auxiliary, h, Nat.add_sub_cancel' (Nat.le_of_lt h)]
    · have := List.take_left auxiliary
        ((List.range (ciphertexts.length - auxiliary.length)).map
          (fun t => (dummy t, (1 / 10000000 : ℚ), 1)))
      simpa [pad_auxiliary, h] using this
    · intro e he
      have hd := List.drop_left auxiliary
        ((List.range (ciphertexts.length - auxiliary.length)).map
          (fun t => (dummy t, (1 / 10000000 : ℚ), 1)))
      rw [pad_auxiliary, if_pos h, hd] at he
      rcases List.mem_map.mp he with ⟨t, _, ht⟩
      exact ⟨t, ht.symm⟩
  · intro h
    simp [pad_auxiliary, Nat.not_lt.mpr h]

/-- Witness for C7 at concrete inputs, one per branch. -/
theorem c7_pad_witness :
    (([([9], 2, 3)] : List (Bytes × ℚ × Nat)).length <
        ([([0], 1), ([1], 1)] : List (Bytes × Nat)).length →
      (pad_auxiliary (fun t => [t]) [([9], 2, 3)] [([0], 1), ([1], 1)]).length =
        ([([0], 1), ([1], 1)] : List (Bytes × Nat)).length ∧
      (pad_auxiliary (fun t => [t]) [([9], 2, 3)] [([0], 1), ([1], 1)]).take
        ([([9], 2, 3)] : List (Bytes × ℚ × Nat)).length = [([9], 2, 3)] ∧
      ∀ e ∈ (pad_auxiliary (fun t => [t]) [([9], 2, 3)] [([0], 1), ([1], 1)]).drop
          ([([9], 2, 3)] : List (Bytes × ℚ × Nat)).length,
        ∃ t, e = ([t], 1 / 10000000, 1)) ∧
    (([([0], 1), ([1], 1)] : List (Bytes × Nat)).length ≤
        ([([9], 2, 3)] : List (Bytes × ℚ × Nat)).length →
      pad_auxiliary (fun t => [t]) [([9], 2, 3)] [([0], 1), ([1], 1)] =
        [([9], 2, 3)]) :=
  c7_pad (fun t => [t]) [([9], 2, 3)] [([0], 1), ([1], 1)]

/-- Counterexample for claim C8: transform on a context on which
set_params never ran completes normally (it performs no readiness check
and iterates zero partitions); it does not panic. -/
theorem c8_transform_counterexample :
    (pfse_transform pfseDefault (fun i t => [i, t])).isSome = true := by
  rfl

/-- Claim C8 (amended): partition without a prior successful set_params
panics with "context not ready"; transform performs no readiness check and,
called on a context where neither set_params nor partition ran, completes
normally as a no-op over zero partitions. -/
theorem c8_not_ready (fuel : Nat) (ctx : PfseCtx) (input : List Bytes)
    (pf : ℚ → Nat → ℚ) (d : Nat → Nat → Bytes) (h : ctx.isReady = false) :
    pfse_partition fuel ctx input pf = Except.error "[-] Context not ready." ∧
    (pfse_transform pfseDefault d).isSome = true := by
  constructor
  · simp [pfse_partition, h]
  · rfl

/-- Witness for C8 at a fresh context. -/
theorem c8_not_ready_witness :
    pfse_partition 3 pfseDefault [[7]] (fun _ _ => 1) =
      Except.error "[-] Context not ready." ∧
    (pfse_transform pfseDefault (fun _ _ => [])).isSome = true :=
  c8_not_ready 3 pfseDefault [[7]] (fun _ _ => 1) (fun _ _ => []) rfl

/-- The partition function used by the concrete C2/C3 pipeline:
a constant 1/2 stand-in for the exponential law (the source passes the
partition function as a parameter). -/
def c23_pf : ℚ → Nat → ℚ := fun _ _ => 1 / 2

/-- The random-dummy stream of the concrete C2/C3 pipeline. -/
def c23_dummy : Nat → Nat → Bytes := fun i t => [100, i, t]

/-- set_params(0.5-law, k0 = 1, advantage 1/2) on a fresh context. -/
def c23_ctx0 : PfseCtx := pfse_set_params pfseDefault 1 1 (1 / 2)

/-- The context after partition on the training input [a, a]. -/
def c23_ctx1 : PfseCtx :=
  match pfse_partition 5 c23_ctx0 [[97], [97]] c23_pf with
  | Except.ok (some c) => c
  | _ => pfseDefault

/-- The context after transform. -/
def c23_ctx2 : PfseCtx :=
  match pfse_transform c23_ctx1 c23_dummy with
  | some c => c
  | none => pfseDefault

/-- Claim C3 evaluated at the failing input (training [a, a], constant
partition law 1/2, k0 = 1, advantage 1/2): here sum = 1 and
n_i = ceil(n * f_i / A_eff) = 4, so the claim demands n_i - sum = 3
appended dummies; the loop `for _ in sum..delta` appends only
delta - sum = 2 (each with count ceil(1/k1) = 2, as the claim states). -/
theorem c3_transform_eval :
    c23_ctx2.partitions =
      [[([97], 2), ([100, 0, 0], 2), ([100, 0, 1], 2)]] ∧
    lookupA c23_ctx2.localTable [97] = some [(0, 1, 2)] := by
  constructor
  · decide
  · decide

/-- Claim C2 evaluated at the failing input: smooth emits the single
distinct ciphertext of the trained message exactly once, although its
local-table entry records repeat_count = 2 (smooth calls encrypt, which is
encrypt_impl with repeat = false, contradicting the doc comment of
encrypt_impl that repeat = false is only for search). The dummies, being
absent from the local table, contribute their raw bytes repeat-many
times. -/
theorem c2_smooth_eval :
    pfse_smooth cseal c23_ctx2 =
      [cseal zeroNonce (pfse_token [97] 0 0),
        [100, 0, 0], [100, 0, 0], [100, 0, 1], [100, 0, 1]] ∧
    (pfse_smooth cseal c23_ctx2).count (cseal zeroNonce (pfse_token [97] 0 0)) = 1 := by
  constructor
  · decide
  · decide

instance {ε α : Type} [DecidableEq ε] [DecidableEq α] :
    DecidableEq (Except ε α) := fun x y =>
  match x, y with
  | Except.ok a, Except.ok b =>
    if h : a = b then isTrue (congrArg Except.ok h)
    else isFalse (fun hc => h (Except.ok.inj hc))
  | Except.error a, Except.error b =>
    if h : a = b then isTrue (congrArg Except.error h)
    else isFalse (fun hc => h (Except.error.inj hc))
  | Except.ok _, Except.error _ => isFalse (fun hc => Except.noConfusion hc)
  | Except.error _, Except.ok _ => isFalse (fun hc => Except.noConfusion hc)

/-- Counterexample for claim C4: the attackers do fail rather than
returning a best-effort recovery rate. First, the MLE attacker panics
when a local-table message is absent from the correct mapping: the single
message 7 is missing from the empty correct map and get_recovery_rate
unwraps None. Second, with message 7 present in the correct map but the
weight map empty, the MLE attacker panics on the ciphertext-weight unwrap
for the common ciphertext 5. Third, under the same mapping the lp
attacker (matching solver output [0] on the 1 by 1 cost matrix) panics on
the same ciphertext-weight unwrap: the if-let guards only the correct-map
lookup, not the weight-map lookup inside it. -/
theorem c4_attacker_panics :
    mle_attack [] [([7], [(0, 1, 1)])] [[5]] [([5], 1)] =
      Except.error "called Option::unwrap() on a None value" ∧
    mle_attack [([7], [[5]])] [([7], [(0, 1, 1)])] [[5]] [] =
      Except.error "called Option::unwrap() on a None value" ∧
    lp_attack (fun _ => [0]) 2 (fun _ => List.replicate 32 0)
        [([7], [[5]])] [([7], [(0, 1, 1)])] [[5]] [] =
      Except.error "called Option::unwrap() on a None value" := by
  refine ⟨by decide, by decide, by decide⟩

theorem pfse_token_take (m : Bytes) (index j : Nat) :
    (pfse_token m index j).take ((pfse_token m index j).length - 18) = m := by
  have hs : ([124] ++ leBytes8 index ++ [124] ++ leBytes8 j).length = 18 := by
    simp [leBytes8]
  have hm : pfse_token m index j =
      m ++ ([124] ++ leBytes8 index ++ [124] ++ leBytes8 j) := by
    simp [pfse_token]
  rw [hm, List.length_append, hs, Nat.add_sub_cancel]
  exact List.take_left m _

theorem encoder_token_take (m : Bytes) (tag : Nat) :
    (encoder_token m tag).take ((encoder_token m tag).length - 9) = m := by
  have hs : ([124] ++ leBytes8 tag).length = 9 := by simp [leBytes8]
  have hm : encoder_token m tag = m ++ ([124] ++ leBytes8 tag) := by
    simp [encoder_token]
  rw [hm, List.length_append, hs, Nat.add_sub_cancel]
  exact List.take_left m _

/-- Claim C1 (amended): for every scheme with a correct AEAD + base64 layer
(opening under the sealing nonce restores the plaintext), decryption
inverts encryption back to the byte representation of the message, for:
PFSE (every ciphertext produced by encrypt_impl from the local table, in
either repeat mode), LPFSE with the IHBE encoder, LPFSE with the BHE
encoder (any homophone token the encoders emit), and the deterministic
baseline DTE. The randomized baseline RND is excluded: its decrypt opens
with the zero nonce while its encrypt sealed under a fresh random nonce
(see the C1 counterexample). -/
theorem c1_round_trip (sealf : Bytes → Bytes → Bytes)
    (opn : Bytes → Bytes → Option Bytes)
    (hop : ∀ nc x, opn nc (sealf nc x) = some x) :
    (∀ (table : PfseTable) (m : Bytes) (rep : Bool) (cts : List Bytes)
        (ct : Bytes), encrypt_impl sealf table m rep = some cts → ct ∈ cts →
        pfse_decrypt opn ct = some m) ∧
    (∀ (m : Bytes) (tag : Nat),
        lpfse_decrypt opn ihbe_decode (sealf zeroNonce (encoder_token m tag)) =
          some m) ∧
    (∀ (m : Bytes) (tag : Nat),
        lpfse_decrypt opn bhe_decode (sealf zeroNonce (encoder_token m tag)) =
          some m) ∧
    (∀ (ctx : NativeCtx) (nonceBuf m ct : Bytes), ctx.rnd = false →
        ct ∈ (native_encrypt sealf ctx nonceBuf m).2 →
        native_decrypt opn ct = some m) := by
  refine ⟨?_, ?_, ?_, ?_⟩
  · intro table m rep cts ct henc hmem
    rw [encrypt_impl] at henc
    rcases hv : lookupA table m with _ | value
    · rw [hv] at henc; cases henc
    · rw [hv] at henc
      have hcts : cts = value.flatMap (fun v =>
          (List.range v.2.1).flatMap (fun j =>
            let c := sealf zeroNonce (pfse_token m v.1 j)
            if rep then List.replicate v.2.2 c else [c])) := by
        cases henc; rfl
      subst hcts
      rcases List.mem_flatMap.mp hmem with ⟨v, _, hin⟩
      rcases List.mem_flatMap.mp hin with ⟨j, _, hin2⟩
      have hct : ct = sealf zeroNonce (pfse_token m v.1 j) := by
        by_cases hrep : rep
        · simp only [hrep, if_pos] at hin2
          exact List.eq_of_mem_replicate hin2
        · simp only [hrep, if_neg] at hin2
          simpa using hin2
      subst hct
      rw [pfse_decrypt, hop]
      simp [pfse_token_take]
  · intro m tag
    rw [lpfse_decrypt, hop]
    simp [ihbe_decode, encoder_token_take]
  · intro m tag
    rw [lpfse_decrypt, hop]
    simp [bhe_decode, encoder_token_take]
  · intro ctx nonceBuf m ct hr hmem
    simp only [native_encrypt, hr, Bool.false_eq_true, if_false,
      List.mem_singleton] at hmem
    subst hmem
    rw [native_decrypt, hop]

/-- Witness for C1 with the concrete cseal/copn cipher: a PFSE table entry
and an IHBE token round-trip at explicit inputs. -/
theorem c1_round_trip_witness :
    pfse_decrypt copn (cseal zeroNonce (pfse_token [9] 0 0)) = some [9] ∧
    lpfse_decrypt copn ihbe_decode (cseal zeroNonce (encoder_token [9] 3)) =
      some [9] := by
  have h := c1_round_trip cseal copn copn_cseal
  constructor
  · exact h.1 [([9], [(0, 1, 1)])] [9] false
      [cseal zeroNonce (pfse_token [9] 0 0)]
      (cseal zeroNonce (pfse_token [9] 0 0)) (by decide) (by decide)
  · exact h.2.1 [9] 3

/-- Counterexample for claim C1: under a cipher satisfying the AEAD
round-trip law, the randomized baseline (rnd = true) encrypts message
[104] under the fresh nonce 1^12, but ContextNative::decrypt opens with
the zero nonce, so decryption of the produced ciphertext fails instead of
returning bytes(m). -/
theorem c1_rnd_counterexample :
    (∀ nc x, copn nc (cseal nc x) = some x) ∧
    (native_encrypt cseal { rnd := true, localTable := [] }
        (List.replicate 12 1) [104]).2 =
      [cseal (List.replicate 12 1) [104]] ∧
    native_decrypt copn (cseal (List.replicate 12 1) [104]) = none := by
  refine ⟨copn_cseal, by decide, by decide⟩

theorem lp_recovery_go_missing (correct : List (Bytes × List Bytes))
    (auxiliary : List (Bytes × ℚ × Nat)) (ciphertexts : List (Bytes × Nat))
    (wmap : List (Bytes × ℚ)) (mnum : Nat) :
    ∀ (assignment : List Nat) (i : Nat),
      (∀ a ∈ auxiliary, lookupA correct a.1 = none) →
      i + assignment.length ≤ auxiliary.length →
      (∀ j ∈ assignment, j < ciphertexts.length) →
      lp_get_recovery_go correct auxiliary ciphertexts wmap mnum assignment i =
        Except.ok 0 := by
  intro assignment
  induction assignment with
  | nil => intro i _ _ _; rfl
  | cons j rest ih =>
    intro i hm hlen hj
    have hi : i < auxiliary.length := by
      simp only [List.length_cons] at hlen; omega
    have hjlt : j < ciphertexts.length := hj j (by simp)
    have hmem : auxiliary.get ⟨i, hi⟩ ∈ auxiliary := List.get_mem auxiliary i hi
    simp only [lp_get_recovery_go, List.get?_eq_get hi, List.get?_eq_get hjlt,
      hm _ hmem]
    refine ih (i + 1) hm ?_ (fun j2 hj2 => hj j2 (List.mem_cons_of_mem _ hj2))
    simp only [List.length_cons] at hlen
    omega

/-- Claim C4 (amended): the lp attacker never fails on messages missing
from the correct mapping: in LpAttacker::get_recovery_rate, every
auxiliary entry whose message is absent from the correct map contributes 0
and triggers no lookup of the weight map, so when no auxiliary message is
in the correct map the recovery rate is 0 (provided the assignment indexes
stay in range, as the Kuhn-Munkres output does). The MLE attacker,
by contrast, panics on such messages, and both attackers panic when the
weight map lacks a ciphertext needed for the weighted sum; all three
panics are exhibited by the C4 counterexample. -/
theorem c4_lp_missing_message (correct : List (Bytes × List Bytes))
    (auxiliary : List (Bytes × ℚ × Nat)) (ciphertexts : List (Bytes × Nat))
    (wmap : List (Bytes × ℚ)) (assignment : List Nat)
    (h1 : ∀ a ∈ auxiliary, lookupA correct a.1 = none)
    (h2 : assignment.length ≤ auxiliary.length)
    (h3 : ∀ j ∈ assignment, j < ciphertexts.length) :
    lp_get_recovery_rate correct auxiliary ciphertexts wmap assignment =
      Except.ok 0 := by
  unfold lp_get_recovery_rate
  exact lp_recovery_go_missing correct auxiliary ciphertexts wmap _ assignment
    0 h1 (by omega) h3

/-- Witness for C4 at concrete inputs: one auxiliary entry, empty correct
map, assignment [0]. -/
theorem c4_lp_missing_message_witness :
    lp_get_recovery_rate [] [([1], 1 / 2, 2)] [([9], 1)] [] [0] =
      Except.ok 0 :=
  c4_lp_missing_message [] [([1], 1 / 2, 2)] [([9], 1)] [] [0]
    (by decide) (by decide) (by decide)

theorem innerTake_append (v : ℚ) (n : Nat) :
    ∀ (l : List (Bytes × Nat)) (s : ℚ),
      (innerTake v n s l).1 ++ (innerTake v n s l).2.2 = l := by
  intro l
  induction l with
  | nil => intro s; simp [innerTake]
  | cons x xs ih =>
    intro s
    by_cases h : s < v
    · simp [innerTake, h, ih]
    · simp [innerTake, h]

theorem innerTake_split (v : ℚ) (n : Nat) :
    ∀ (l : List (Bytes × Nat)) (s : ℚ), s < v →
      v < (innerTake v n s l).2.1 →
      ∃ lm lc prev, (innerTake v n s l).1.getLast? = some (lm, lc) ∧
        (innerTake v n s l).2.1 = prev + (lc : ℚ) / (n : ℚ) ∧ prev < v := by
  intro l
  induction l with
  | nil =>
    intro s hs hv
    rw [innerTake] at hv
    exact absurd hv (by simp; linarith)
  | cons x xs ih =>
    intro s hs hv
    have hv2 : v < (innerTake v n (s + (x.2 : ℚ) / (n : ℚ)) xs).2.1 := by
      rw [innerTake, if_pos hs] at hv
      exact hv
    by_cases h2 : s + (x.2 : ℚ) / (n : ℚ) < v
    · obtain ⟨lm, lc, prev, h3, h4, h5⟩ := ih (s + (x.2 : ℚ) / (n : ℚ)) h2 hv2
      refine ⟨lm, lc, prev, ?_, ?_, h5⟩
      · rw [innerTake, if_pos hs]
        show (x :: (innerTake v n (s + (x.2 : ℚ) / (n : ℚ)) xs).1).getLast? =
          some (lm, lc)
        cases r1 : (innerTake v n (s + (x.2 : ℚ) / (n : ℚ)) xs).1 with
        | nil => rw [r1] at h3; cases h3
        | cons a b =>
          rw [r1] at h3
          simpa [List.getLast?_cons_cons] using h3
      · rw [innerTake, if_pos hs]
        exact h4
    · have hxs : (innerTake v n (s + (x.2 : ℚ) / (n : ℚ)) xs).2.1 =
          s + (x.2 : ℚ) / (n : ℚ) ∧
          (innerTake v n (s + (x.2 : ℚ) / (n : ℚ)) xs).1 = [] := by
        cases xs with
        | nil => exact ⟨rfl, rfl⟩
        | cons y ys => rw [innerTake, if_neg h2]; exact ⟨rfl, rfl⟩
      refine ⟨x.1, x.2, s, ?_, ?_, hs⟩
      · rw [innerTake, if_pos hs]
        show (x :: (innerTake v n (s + (x.2 : ℚ) / (n : ℚ)) xs).1).getLast? =
          some (x.1, x.2)
        rw [hxs.2]
        simp
      · rw [innerTake, if_pos hs]
        show (innerTake v n (s + (x.2 : ℚ) / (n : ℚ)) xs).2.1 =
          s + (x.2 : ℚ) / (n : ℚ)
        exact hxs.1

theorem insert_desc_sum (x : Bytes × Nat) (l : List (Bytes × Nat)) :
    hist_sum (insert_desc x l) = x.2 + hist_sum l := by
  induction l with
  | nil => rfl
  | cons y ys ih =>
    by_cases h : y.2 ≤ x.2
    · simp [insert_desc, h, hist_sum_cons]
    · simp [insert_desc, h, hist_sum_cons, ih]; ring

theorem insert_desc_mem {x y : Bytes × Nat} {l : List (Bytes × Nat)}
    (h : y ∈ insert_desc x l) : y = x ∨ y ∈ l := by
  induction l with
  | nil => simpa [insert_desc] using h
  | cons z zs ih =>
    by_cases hz : z.2 ≤ x.2
    · simp only [insert_desc, if_pos hz, List.mem_cons] at h
      rcases h with h | h | h
      · exact Or.inl h
      · exact Or.inr (by simp [h])
      · exact Or.inr (by simp [h])
    · simp only [insert_desc, if_neg hz, List.mem_cons] at h
      rcases h with h | h
      · exact Or.inr (by simp [h])
      · rcases ih h with h | h
        · exact Or.inl h
        · exact Or.inr (by simp [h])

theorem getLast?_decomp {α : Type} :
    ∀ {l : List α} {y : α}, l.getLast? = some y → l = l.dropLast ++ [y] := by
  intro l
  induction l with
  | nil => intro y h; cases h
  | cons x xs ih =>
    intro y h
    cases xs with
    | nil =>
      simp only [List.getLast?_singleton, Option.some.injEq] at h
      subst h; rfl
    | cons a b =>
      rw [List.getLast?_cons_cons] at h
      have hd := ih h
      calc x :: a :: b = x :: ((a :: b).dropLast ++ [y]) := by rw [← hd]
        _ = (x :: a :: b).dropLast ++ [y] := by simp

theorem partitionLoop_sum (pf : Nat → ℚ) (n : Nat) (hn : 0 < n) :
    ∀ (fuel g : Nat) (l : List (Bytes × Nat))
      (parts : List (List (Bytes × Nat))),
      (∀ p ∈ l, p.2 ≤ n) →
      partitionLoop pf n fuel g l = some parts →
      (parts.map hist_sum).sum = hist_sum l := by
  intro fuel
  induction fuel with
  | zero =>
    intro g l parts hwf hrun
    cases l with
    | nil =>
      simp only [partitionLoop] at hrun
      injection hrun with h
      subst h
      simp [hist_sum]
    | cons x xs =>
      simp only [partitionLoop] at hrun
      cases hrun
  | succ fuel ih =>
    intro g l parts hwf hrun
    cases l with
    | nil =>
      simp only [partitionLoop] at hrun
      injection hrun with h
      subst h
      simp [hist_sum]
    | cons x xs =>
      simp only [partitionLoop] at hrun
      by_cases h1 : pf g * (n : ℚ) ≤ 1
      · rw [if_pos h1] at hrun
        injection hrun with h
        subst h
        simp [hist_sum]
      · rw [if_neg h1] at hrun
        set v := pf g with hv
        set r := innerTake v n 0 (x :: xs) with hrdef
        have happ : r.1 ++ r.2.2 = x :: xs := innerTake_append v n (x :: xs) 0
        have hwf1 : ∀ p ∈ r.1, p.2 ≤ n := fun p hp =>
          hwf p (by rw [← happ]; exact List.mem_append_left _ hp)
        have hwf2 : ∀ p ∈ r.2.2, p.2 ≤ n := fun p hp =>
          hwf p (by rw [← happ]; exact List.mem_append_right _ hp)
        have hnq : (0 : ℚ) < (n : ℚ) := by exact_mod_cast hn
        have hvpos : (0 : ℚ) < v := by
          by_contra hc
          push_neg at hc
          exact h1 (by nlinarith)
        have htot : hist_sum (x :: xs) = hist_sum r.1 + hist_sum r.2.2 := by
          rw [← happ, hist_sum_append]
        by_cases h2 : v < r.2.1
        · rw [if_pos h2] at hrun
          obtain ⟨lm, lc, prev, h3, h4, h5⟩ :=
            innerTake_split v n (x :: xs) 0 hvpos h2
          rw [h3] at hrun
          set d := r.2.1 - v with hddef
          have hd0 : (0 : ℚ) < d := by simp only [hddef]; linarith
          have hmemlast : (lm, lc) ∈ r.1 := by
            rw [getLast?_decomp h3]
            exact List.mem_append_right _ (by simp)
          have hlcn : lc ≤ n := hwf1 (lm, lc) hmemlast
          have hdn : d < (lc : ℚ) / (n : ℚ) := by
            simp only [hddef]
            rw [h4] at h2 ⊢
            linarith
          have hd1 : d < 1 := by
            have hle : (lc : ℚ) / (n : ℚ) ≤ 1 :=
              (div_le_one hnq).mpr (by exact_mod_cast hlcn)
            linarith
          have hfloor0 : 0 ≤ Int.floor ((lc : ℚ) * d) :=
            Int.floor_nonneg.mpr (by positivity)
          have hfloorlc : Int.floor ((lc : ℚ) * d) ≤ (lc : ℤ) := by
            have hle : (lc : ℚ) * d ≤ ((lc : ℤ) : ℚ) := by push_cast; nlinarith
            calc Int.floor ((lc : ℚ) * d) ≤ Int.floor (((lc : ℤ) : ℚ)) :=
                  Int.floor_le_floor hle
              _ = (lc : ℤ) := Int.floor_intCast _
          have hceil : Int.ceil ((lc : ℚ) * (1 - d)) =
              (lc : ℤ) - Int.floor ((lc : ℚ) * d) := by
            have he : (lc : ℚ) * (1 - d) = -((lc : ℚ) * d) + ((lc : ℤ) : ℚ) := by
              push_cast; ring
            rw [he, Int.ceil_add_int, Int.ceil_neg]
            ring
          have hsum_nat : (Int.ceil ((lc : ℚ) * (1 - d))).toNat +
              (Int.floor ((lc : ℚ) * d)).toNat = lc := by
            rw [hceil]; omega
          have hr1sum : hist_sum r.1 = hist_sum r.1.dropLast + lc := by
            conv_lhs => rw [getLast?_decomp h3]
            rw [hist_sum_append]; simp [hist_sum]
          rcases Option.map_eq_some'.mp hrun with ⟨parts2, hrun2, hpts⟩
          subst hpts
          have hpart : hist_sum (r.1.dropLast ++
              [(lm, (Int.ceil ((lc : ℚ) * (1 - d))).toNat)]) =
              hist_sum r.1.dropLast + (Int.ceil ((lc : ℚ) * (1 - d))).toNat := by
            rw [hist_sum_append]
            simp [hist_sum]
          by_cases hz : (Int.floor ((lc : ℚ) * d)).toNat = 0
          · rw [if_neg (by simpa using hz)] at hrun2
            have hrec := ih (g + 1) r.2.2 parts2 hwf2 hrun2
            simp only [List.map_cons, List.sum_cons, hrec, htot, hpart]
            omega
          · rw [if_pos (by simpa using hz)] at hrun2
            have hwfr : ∀ p ∈ insert_desc (lm, (Int.floor ((lc : ℚ) * d)).toNat)
                r.2.2, p.2 ≤ n := by
              intro p hp
              rcases insert_desc_mem hp with h6 | h6
              · subst h6; simp; omega
              · exact hwf2 p h6
            have hrec := ih (g + 1) _ parts2 hwfr hrun2
            rw [insert_desc_sum] at hrec
            simp only [List.map_cons, List.sum_cons, hrec, htot, hpart]
            omega
        · rw [if_neg h2] at hrun
          rcases Option.map_eq_some'.mp hrun with ⟨parts2, hrun2, hpts⟩
          subst hpts
          have hrec := ih (g + 1) r.2.2 parts2 hwf2 hrun2
          simp only [List.map_cons, List.sum_cons, hrec, htot]

/-- Claim C6: after a successful PFSE partition on a training input (before
transform), the sum over all emitted partitions of the member counts equals
the training size exactly — in particular within the deviation of at most 1
per split entry that the claim allows: in exact arithmetic the split parts
ceil(count * (1 - diff)) and floor(count * diff) always add up to count. -/
theorem c6_partition_coverage (fuel : Nat) (ctx : PfseCtx)
    (input : List Bytes) (pf : ℚ → Nat → ℚ)
    (parts : List (List (Bytes × Nat)))
    (hready : ctx.isReady = true) (hfresh : ctx.partitions = [])
    (hrun : (pfse_partition fuel ctx input pf).map
      (Option.map PfseCtx.partitions) = Except.ok (some parts)) :
    (parts.map hist_sum).sum = input.length := by
  rw [pfse_partition] at hrun
  rw [if_neg (by simp [hready])] at hrun
  simp only [Except.map] at hrun
  injection hrun with hrun
  rw [Option.map_map] at hrun
  rcases Option.map_eq_some'.mp hrun with ⟨parts0, hloop, hparts⟩
  have hpp : parts = parts0 := by
    rw [← hparts]
    simp [hfresh]
  subst hpp
  by_cases hinput : input = []
  · subst hinput
    have hnil : partitionLoop
        (fun g => pf ({ ctx with partitionFunc := some pf } : PfseCtx).pPartition g *
          ({ ctx with partitionFunc := some pf } : PfseCtx).pScale)
        ([] : List Bytes).length fuel 1
        (build_histogram_vec (build_histogram [])) = some [] := by
      cases fuel <;> rfl
    rw [hnil] at hloop
    injection hloop with hloop
    subst hloop
    simp
  · have hn : 0 < input.length := List.length_pos.mpr hinput
    have hwf : ∀ p ∈ build_histogram_vec (build_histogram input),
        p.2 ≤ input.length := by
      intro p hp
      have h2 := mem_le_hist_sum (build_histogram_vec_mem hp)
      rw [build_histogram_sum] at h2
      exact h2
    have hsum := partitionLoop_sum _ input.length hn fuel 1 _ parts hwf hloop
    rw [hsum, build_histogram_vec_sum, build_histogram_sum]

/-- Witness for C6: a concrete run (training [[1],[1],[2]], constant
partition law 1/2) that splits the first message and still sums to 3. -/
theorem c6_partition_coverage_witness :
    ((([[([1], 2)], [([2], 1)]] : List (List (Bytes × Nat))).map
      hist_sum).sum) = 3 :=
  c6_partition_coverage 10 (pfse_set_params pfseDefault 1 1 (1 / 2))
    [[1], [1], [2]] (fun _ _ => 1 / 2) [[([1], 2)], [([2], 1)]]
    rfl rfl (by decide)

theorem ihbeBound_mono {R q1 q2 : ℚ} (hR : 0 ≤ R) (h : q1 ≤ q2) :
    ihbeBound R q1 ≤ ihbeBound R q2 := by
  unfold ihbeBound
  have hle : round (R * q1) ≤ round (R * q2) := by
    rw [round_eq, round_eq]
    exact Int.floor_le_floor (by nlinarith)
  omega

theorem ihbeZip_cumFreqs (R : ℚ) (n : Nat) (hist : List (Bytes × Nat)) (s : ℚ) :
    ihbeZip R hist (cumFreqs n s hist) =
      match hist with
      | [] => []
      | (m, c) :: hs =>
        (m, (c, ihbeBound R s, ihbeBound R (s + (c : ℚ) / (n : ℚ)))) ::
          ihbeZip R hs (cumFreqs n (s + (c : ℚ) / (n : ℚ)) hs) := by
  cases hist with
  | nil => rfl
  | cons x hs =>
    cases hs with
    | nil => rfl
    | cons y hs2 => rfl

theorem cumFreqs_getLastD (n : Nat) :
    ∀ (l : List (Bytes × Nat)) (s d : ℚ),
      (cumFreqs n s l).getLastD d = (cumFreqs n s l).getLastD 0 := by
  intro l
  induction l with
  | nil => intro s d; rfl
  | cons x r ih =>
    intro s d
    show (s :: cumFreqs n (s + (x.2 : ℚ) / (n : ℚ)) r).getLastD d =
      (s :: cumFreqs n (s + (x.2 : ℚ) / (n : ℚ)) r).getLastD 0
    rw [List.getLastD_cons, List.getLastD_cons, ih]

theorem cumFreqs_le_last (n : Nat) :
    ∀ (l : List (Bytes × Nat)) (s : ℚ),
      s ≤ (cumFreqs n s l).getLastD 0 := by
  intro l
  induction l with
  | nil => intro s; exact le_refl s
  | cons x r ih =>
    intro s
    show s ≤ (s :: cumFreqs n (s + (x.2 : ℚ) / (n : ℚ)) r).getLastD 0
    rw [List.getLastD_cons, cumFreqs_getLastD]
    refine le_trans ?_ (ih (s + (x.2 : ℚ) / (n : ℚ)))
    have : (0 : ℚ) ≤ (x.2 : ℚ) / (n : ℚ) := by positivity
    linarith

theorem ihbeZip_lo {R : ℚ} (hR : 0 ≤ R) (n : Nat) :
    ∀ (hist : List (Bytes × Nat)) (s : ℚ) (e : Bytes × IbheKey),
      e ∈ ihbeZip R hist (cumFreqs n s hist) → ihbeBound R s ≤ e.2.2.1 := by
  intro hist
  induction hist with
  | nil =>
    intro s e he
    rw [ihbeZip_cumFreqs] at he
    cases he
  | cons x hs ih =>
    intro s e he
    rw [ihbeZip_cumFreqs] at he
    rcases List.mem_cons.mp he with h1 | h1
    · subst h1; exact le_refl _
    · refine le_trans (ihbeBound_mono hR ?_) (ih _ e h1)
      have : (0 : ℚ) ≤ (x.2 : ℚ) / (n : ℚ) := by positivity
      linarith

theorem ihbeZip_pairwise {R : ℚ} (hR : 0 ≤ R) (n : Nat) :
    ∀ (hist : List (Bytes × Nat)) (s : ℚ),
      List.Pairwise (fun a b => a.2.2.2 ≤ b.2.2.1)
        (ihbeZip R hist (cumFreqs n s hist)) := by
  intro hist
  induction hist with
  | nil => intro s; rw [ihbeZip_cumFreqs]; exact List.Pairwise.nil
  | cons x hs ih =>
    intro s
    rw [ihbeZip_cumFreqs]
    refine List.Pairwise.cons ?_ (ih _)
    intro e he
    exact ihbeZip_lo hR n hs _ e he

theorem ihbeZip_cover {R : ℚ} (hR : 0 ≤ R) (n : Nat) :
    ∀ (hist : List (Bytes × Nat)) (s : ℚ) (t : Nat),
      (∃ e ∈ ihbeZip R hist (cumFreqs n s hist),
        e.2.2.1 ≤ t ∧ t < e.2.2.2) ↔
      (ihbeBound R s ≤ t ∧
        t < ihbeBound R ((cumFreqs n s hist).getLastD 0)) := by
  intro hist
  induction hist with
  | nil =>
    intro s t
    rw [ihbeZip_cumFreqs]
    have hgl : (([s] : List ℚ)).getLastD 0 = s := rfl
    show (∃ e ∈ ([] : List (Bytes × IbheKey)), e.2.2.1 ≤ t ∧ t < e.2.2.2) ↔
      ihbeBound R s ≤ t ∧ t < ihbeBound R (([s] : List ℚ).getLastD 0)
    rw [hgl]
    simp only [List.not_mem_nil, false_and, exists_const, exists_false]
    constructor
    · exact False.elim
    · rintro ⟨h1, h2⟩
      omega
  | cons x hs ih =>
    intro s t
    rw [ihbeZip_cumFreqs]
    have hlast : (cumFreqs n s (x :: hs)).getLastD 0 =
        (cumFreqs n (s + (x.2 : ℚ) / (n : ℚ)) hs).getLastD 0 := by
      show (s :: cumFreqs n (s + (x.2 : ℚ) / (n : ℚ)) hs).getLastD 0 =
        (cumFreqs n (s + (x.2 : ℚ) / (n : ℚ)) hs).getLastD 0
      rw [List.getLastD_cons, cumFreqs_getLastD]
    rw [hlast]
    have hdiv : (0 : ℚ) ≤ (x.2 : ℚ) / (n : ℚ) := by positivity
    have hmid : ihbeBound R s ≤ ihbeBound R (s + (x.2 : ℚ) / (n : ℚ)) :=
      ihbeBound_mono hR (by linarith)
    have hmid2 : ihbeBound R (s + (x.2 : ℚ) / (n : ℚ)) ≤
        ihbeBound R ((cumFreqs n (s + (x.2 : ℚ) / (n : ℚ)) hs).getLastD 0) :=
      ihbeBound_mono hR (cumFreqs_le_last n hs _)
    constructor
    · intro he
      rcases he with ⟨e, he1, he2⟩
      rcases List.mem_cons.mp he1 with h1 | h1
      · subst h1
        simp only at he2
        omega
      · have := (ih (s + (x.2 : ℚ) / (n : ℚ)) t).mp ⟨e, h1, he2⟩
        omega
    · intro ht
      by_cases hcase : t < ihbeBound R (s + (x.2 : ℚ) / (n : ℚ))
      · exact ⟨(x.1, (x.2, ihbeBound R s,
          ihbeBound R (s + (x.2 : ℚ) / (n : ℚ)))), by simp, ht.1, hcase⟩
      · have := (ih (s + (x.2 : ℚ) / (n : ℚ)) t).mpr ⟨by omega, ht.2⟩
        rcases this with ⟨e, he1, he2⟩
        exact ⟨e, List.mem_cons_of_mem _ he1, he2⟩

/-- The right endpoint of the last interval the IHBE initializer builds:
round(2^r * F) where F is the total adjusted frequency mass. When the
adjustment leaves the histogram mass at 1, this is 2^r. -/
def ihbe_end (messages : List Bytes) (r : ℤ) : Nat :=
  ihbeBound ((2 : ℚ) ^ r)
    ((cumFreqs messages.length 0
      (adjust_distribution (build_histogram_vec (build_histogram messages))
        messages.length r)).getLastD 0)

/-- Claim C5 (amended): after EncoderIHBE::initialize on a non-empty
training sample, the stored per-message intervals are pairwise disjoint
(listed in order, each interval ends no later than any later interval
starts) and their union is exactly the initial segment
[0, round(2^r * F)) of the tag space, F being the total adjusted
frequency mass (equal to [0, 2^r) whenever the adjustment preserves total
mass 1). A trained message may however receive an empty interval (see the
C5 counterexample), contrary to the original claim. -/
theorem c5_intervals (messages : List Bytes) (r : ℤ)
    (old : List (Bytes × IbheKey)) (h : messages ≠ []) :
    List.Pairwise (fun a b => a.2.2.2 ≤ b.2.2.1)
      (ihbe_init old messages r) ∧
    ∀ t : Nat, (∃ e ∈ ihbe_init old messages r,
        e.2.2.1 ≤ t ∧ t < e.2.2.2) ↔ t < ihbe_end messages r := by
  have hR : (0 : ℚ) ≤ (2 : ℚ) ^ r := le_of_lt (zpow_pos (by norm_num) r)
  unfold ihbe_init
  rw [if_neg h]
  constructor
  · exact ihbeZip_pairwise hR messages.length _ 0
  · intro t
    have hcov := ihbeZip_cover hR messages.length
      (adjust_distribution (build_histogram_vec (build_histogram messages))
        messages.length r) 0 t
    have h0 : ihbeBound ((2 : ℚ) ^ r) 0 = 0 := by
      unfold ihbeBound
      simp
    rw [hcov, h0]
    unfold ihbe_end
    omega

/-- Witness for C5 at the concrete sample of four distinct messages and
r = 1. -/
theorem c5_intervals_witness :
    List.Pairwise (fun a b => a.2.2.2 ≤ b.2.2.1)
      (ihbe_init [] [[0], [1], [2], [3]] 1) ∧
    ∀ t : Nat, (∃ e ∈ ihbe_init [] [[0], [1], [2], [3]] 1,
        e.2.2.1 ≤ t ∧ t < e.2.2.2) ↔ t < ihbe_end [[0], [1], [2], [3]] 1 :=
  c5_intervals [[0], [1], [2], [3]] 1 [] (by decide)

/-- Counterexample for claim C5: on the training sample of four distinct
messages with advantage 9/10, the source computes r = 1 (the real-number
characterization ihbeRSpec is proved below from pi bounds), and the
initialized table assigns message [1] the empty interval [1, 1) — so not
every trained message receives a non-empty interval. -/
theorem c5_empty_interval_counterexample :
    ihbeRSpec [[0], [1], [2], [3]] (9 / 10) 1 ∧
    lookupA (ihbe_init [] [[0], [1], [2], [3]] 1) [1] = some (1, 1, 1) := by
  constructor
  · unfold ihbeRSpec
    have hfmin : ihbeFmin [[0], [1], [2], [3]] = 1 / 4 := by decide
    rw [hfmin]
    have hlen : (([[0], [1], [2], [3]] : List Bytes).length : ℝ) = 4 := by
      norm_num
    rw [hlen]
    have hsqrt4 : Real.sqrt 4 = 2 := by
      rw [show (4 : ℝ) = 2 ^ 2 by norm_num]
      exact Real.sqrt_sq (by norm_num)
    rw [hsqrt4]
    have hpi : (0 : ℝ) < 2 * Real.pi := by positivity
    set s := Real.sqrt (2 * Real.pi) with hs
    have hs_pos : 0 < s := Real.sqrt_pos.mpr hpi
    have hs_lt : s < 40 / 9 := by
      rw [hs]
      refine (Real.sqrt_lt' (by norm_num)).mpr ?_
      nlinarith [Real.pi_lt_four]
    have hs_ge : 20 / 9 ≤ s := by
      rw [hs]
      refine (Real.le_sqrt (by norm_num) (le_of_lt hpi)).mpr ?_
      nlinarith [Real.pi_gt_three]
    have hcast : (((1 / 4 : ℚ) : ℝ)) = 1 / 4 := by norm_num
    rw [hcast]
    have hden : (0 : ℝ) < 2 * s * (9 / 10) * (1 / 4) := by positivity
    have hx_pos : (0 : ℝ) < 2 / (2 * s * (9 / 10) * (1 / 4)) := by positivity
    have hx1 : 1 < 2 / (2 * s * (9 / 10) * (1 / 4)) := by
      rw [one_lt_div hden]
      nlinarith
    have hx2 : 2 / (2 * s * (9 / 10) * (1 / 4)) ≤ 2 := by
      rw [div_le_iff hden]
      nlinarith
    symm
    rw [Int.ceil_eq_iff]
    constructor
    · push_cast
      simpa using Real.logb_pos (by norm_num) hx1
    · push_cast
      refine (Real.logb_le_iff_le_rpow (by norm_num) hx_pos).mpr ?_
      rw [Real.rpow_one]
      exact hx2
  · decide

theorem bumpHistogram_lookup (acc : List (Bytes × Nat)) (x m : Bytes) :
    lookupA (bumpHistogram acc x) m =
      if x = m then some ((lookupA acc m).getD 0 + 1) else lookupA acc m := by
  induction acc with
  | nil =>
    by_cases h : x = m <;> simp [bumpHistogram, lookupA, h]
  | cons p r ih =>
    cases p with
    | mk a c =>
      by_cases hax : a = x
      · subst hax
        by_cases ham : a = m
        · subst ham
          simp [bumpHistogram, lookupA]
        · rw [bumpHistogram, if_pos rfl, lookupA, if_neg ham, lookupA,
            if_neg ham]
          rw [if_neg (fun h2 => ham h2)]
      · by_cases ham : a = m
        · subst ham
          have hxm : ¬x = a := fun h => hax h.symm
          simp [bumpHistogram, hax, lookupA, hxm]
        · simp [bumpHistogram, hax, lookupA, ham, ih]

theorem foldl_bump_lookup (l : List Bytes) :
    ∀ (acc : List (Bytes × Nat)) (m : Bytes),
      lookupA (l.foldl bumpHistogram acc) m =
        match lookupA acc m with
        | some c => some (c + l.count m)
        | none => if m ∈ l then some (l.count m) else none := by
  induction l with
  | nil =>
    intro acc m
    cases h : lookupA acc m <;> simp [h]
  | cons x xs ih =>
    intro acc m
    rw [List.foldl_cons, ih (bumpHistogram acc x) m, bumpHistogram_lookup]
    by_cases hxm : x = m
    · subst hxm
      rw [if_pos rfl]
      have hc : (x :: xs).count x = xs.count x + 1 := by
        simp [List.count_cons]
      cases h : lookupA acc x with
      | none =>
        show some ((none : Option Nat).getD 0 + 1 + xs.count x) =
          if x ∈ x :: xs then some ((x :: xs).count x) else none
        rw [if_pos (List.mem_cons_self x xs), hc]
        exact congrArg some (by simp only [Option.getD_none]; omega)
      | some c =>
        show some (c + 1 + xs.count x) = some (c + (x :: xs).count x)
        rw [hc]
        exact congrArg some (by omega)
    · rw [if_neg hxm]
      have hmx : ¬m = x := fun h2 => hxm h2.symm
      have hc : (x :: xs).count m = xs.count m := by
        simp [List.count_cons, hmx]
      cases h : lookupA acc m with
      | none =>
        show (if m ∈ xs then some (xs.count m) else none) =
          if m ∈ x :: xs then some ((x :: xs).count m) else none
        rw [hc]
        simp [List.mem_cons, hmx]
      | some c =>
        show some (c + xs.count m) = some (c + (x :: xs).count m)
        rw [hc]

theorem build_histogram_lookup (dataset : List Bytes) (m : Bytes) :
    lookupA (build_histogram dataset) m =
      if m ∈ dataset then some (dataset.count m) else none := by
  rw [build_histogram, foldl_bump_lookup]
  rfl

theorem lookupA_map_pair {β : Type} (f : Nat → β) :
    ∀ (l : List (Bytes × Nat)) (m : Bytes),
      lookupA (l.map (fun p => (p.1, f p.2))) m = (lookupA l m).map f := by
  intro l
  induction l with
  | nil => intro m; rfl
  | cons p r ih =>
    intro m
    by_cases h : p.1 = m <;> simp [lookupA, h, ih]

theorem foldmax_init_le (l : List (Bytes × Nat)) :
    ∀ a : Nat, a ≤ l.foldl (fun acc q => max acc q.2) a := by
  induction l with
  | nil => intro a; exact le_refl a
  | cons p r ih =>
    intro a
    exact le_trans (le_max_left a p.2) (ih (max a p.2))

theorem foldmax_mem_le {p : Bytes × Nat} {l : List (Bytes × Nat)}
    (h : p ∈ l) : ∀ a : Nat, p.2 ≤ l.foldl (fun acc q => max acc q.2) a := by
  induction l with
  | nil => cases h
  | cons q r ih =>
    intro a
    rcases List.mem_cons.mp h with h1 | h1
    · subst h1
      exact le_trans (le_max_right a p.2) (foldmax_init_le r _)
    · exact ih h1 _

theorem foldmax_attained (l : List (Bytes × Nat)) :
    ∀ a : Nat, l.foldl (fun acc q => max acc q.2) a = a ∨
      ∃ p ∈ l, l.foldl (fun acc q => max acc q.2) a = p.2 := by
  induction l with
  | nil => intro a; exact Or.inl rfl
  | cons q r ih =>
    intro a
    rcases ih (max a q.2) with h | ⟨p, hp, hv⟩
    · by_cases hle : q.2 ≤ a
      · rw [List.foldl_cons]
        left
        rw [h]
        omega
      · right
        exact ⟨q, by simp, by rw [List.foldl_cons, h]; omega⟩
    · right
      exact ⟨p, List.mem_cons_of_mem _ hp, by rw [List.foldl_cons]; exact hv⟩

theorem lookupA_mem {β : Type} {l : List (Bytes × β)} {m : Bytes} {b : β}
    (h : lookupA l m = some b) : (m, b) ∈ l := by
  induction l with
  | nil => cases h
  | cons p r ih =>
    cases p with
    | mk a c =>
      by_cases hp : a = m
      · rw [lookupA, if_pos hp] at h
        injection h with h
        subst hp
        subst h
        exact List.mem_cons_self _ _
      · rw [lookupA, if_neg hp] at h
        exact List.mem_cons_of_mem _ (ih h)

theorem bumpHistogram_key_sub {acc : List (Bytes × Nat)} {x : Bytes}
    {q : Bytes × Nat} (h : q ∈ bumpHistogram acc x) :
    q.1 = x ∨ q.1 ∈ acc.map Prod.fst := by
  induction acc with
  | nil =>
    simp [bumpHistogram] at h
    simp [h]
  | cons p r ih =>
    cases p with
    | mk a c =>
      by_cases hax : a = x
      · rw [bumpHistogram, if_pos hax] at h
        rcases List.mem_cons.mp h with h1 | h1
        · left
          rw [h1]
          exact hax
        · right
          simp only [List.map_cons, List.mem_cons]
          exact Or.inr (List.mem_map.mpr ⟨q, h1, rfl⟩)
      · rw [bumpHistogram, if_neg hax] at h
        rcases List.mem_cons.mp h with h1 | h1
        · right
          simp [h1]
        · rcases ih h1 with h2 | h2
          · exact Or.inl h2
          · right
            simp only [List.map_cons, List.mem_cons]
            exact Or.inr h2

theorem bumpHistogram_keys {acc : List (Bytes × Nat)} (x : Bytes)
    (h : List.Pairwise (fun u v => u.1 ≠ v.1) acc) :
    List.Pairwise (fun u v => u.1 ≠ v.1) (bumpHistogram acc x) := by
  induction acc with
  | nil => simp [bumpHistogram]
  | cons p r ih =>
    cases p with
    | mk a c =>
      rcases List.pairwise_cons.mp h with ⟨h1, h2⟩
      by_cases hax : a = x
      · rw [bumpHistogram, if_pos hax]
        exact List.pairwise_cons.mpr ⟨h1, h2⟩
      · rw [bumpHistogram, if_neg hax]
        refine List.pairwise_cons.mpr ⟨?_, ih h2⟩
        intro q hq
        rcases bumpHistogram_key_sub hq with h3 | h3
        · show a ≠ q.1
          rw [h3]
          exact hax
        · rcases List.mem_map.mp h3 with ⟨q2, hq2, hq2e⟩
          show a ≠ q.1
          rw [← hq2e]
          exact h1 q2 hq2

theorem build_histogram_keys (dataset : List Bytes) :
    List.Pairwise (fun u v => u.1 ≠ v.1) (build_histogram dataset) := by
  rw [build_histogram]
  suffices h : ∀ acc, List.Pairwise (fun u v => u.1 ≠ v.1) acc →
      List.Pairwise (fun u v => u.1 ≠ v.1)
        (dataset.foldl bumpHistogram acc) by
    exact h [] List.Pairwise.nil
  induction dataset with
  | nil => intro acc h; exact h
  | cons x xs ih =>
    intro acc h
    exact ih _ (bumpHistogram_keys x h)

theorem lookupA_of_mem_nodup {β : Type} {l : List (Bytes × β)}
    (hnd : List.Pairwise (fun u v => u.1 ≠ v.1) l) {m : Bytes} {b : β}
    (h : (m, b) ∈ l) : lookupA l m = some b := by
  induction l with
  | nil => cases h
  | cons p r ih =>
    rcases List.pairwise_cons.mp hnd with ⟨h1, h2⟩
    rcases List.mem_cons.mp h with h3 | h3
    · rw [← h3]
      simp [lookupA]
    · have hne : p.1 ≠ m := by
        have := h1 (m, b) h3
        simpa using this
      rw [lookupA, if_neg hne]
      exact ih h2 h3

theorem build_histogram_mem_count {dataset : List Bytes} {p : Bytes × Nat}
    (h : p ∈ build_histogram dataset) :
    p.1 ∈ dataset ∧ p.2 = dataset.count p.1 := by
  have hl : lookupA (build_histogram dataset) p.1 = some p.2 :=
    lookupA_of_mem_nodup (build_histogram_keys dataset)
      (show (p.1, p.2) ∈ build_histogram dataset from by simpa using h)
  rw [build_histogram_lookup] at hl
  by_cases hmem : p.1 ∈ dataset
  · rw [if_pos hmem] at hl
    injection hl with hl
    exact ⟨hmem, hl.symm⟩
  · rw [if_neg hmem] at hl
    cases hl

theorem bheFmax_ge {messages : List Bytes} {m : Bytes} (h : m ∈ messages) :
    messages.count m ≤ bheFmax messages := by
  have hl : lookupA (build_histogram messages) m = some (messages.count m) := by
    rw [build_histogram_lookup, if_pos h]
  exact foldmax_mem_le (lookupA_mem hl) 0

theorem bheFmax_attained {messages : List Bytes} (h : messages ≠ []) :
    ∃ m ∈ messages, messages.count m = bheFmax messages := by
  rcases foldmax_attained (build_histogram messages) 0 with h1 | ⟨p, hp, hv⟩
  · exfalso
    cases messages with
    | nil => exact h rfl
    | cons x xs =>
      have hx : x ∈ x :: xs := List.mem_cons_self x xs
      have hcount : 1 ≤ (x :: xs).count x := by
        have := List.count_pos_iff.mpr hx
        omega
      have hle := bheFmax_ge hx
      unfold bheFmax at hle
      rw [h1] at hle
      omega
  · rcases build_histogram_mem_count hp with ⟨hm, hc⟩
    refine ⟨p.1, hm, ?_⟩
    rw [← hc]
    exact hv.symm

/-- Claim C9: after EncoderBHE::initialize on a non-empty training sample
with advantage A, with lv the integer value of the f64 expression
ceil(log2(n / ((2A)^2 * pi))) (bheLSpec): when lv would underflow
(lv <= 0, so that the saturating usize cast gives 0 and checked_sub(1)
fails), initialization fail-softs leaving the fresh state (empty table)
except for message_num; otherwise the band length is lv - 1, the band
width is f_max / (n * 2^(lv - 1)) with f_max the largest training count
(bounds every count and is attained), and encode_all on every trained
message m returns exactly the tokens bytes(m), 0x7C, le(tag) for
tag in [0, ceil(count(m) / (band_width * n))). -/
theorem c9_bhe_init_encode (messages : List Bytes) (advantage : ℝ) (lv : ℤ)
    (hne : messages ≠ []) (hspec : bheLSpec messages advantage lv) :
    (lv ≤ 0 → bhe_init bheFresh messages lv =
      { bheFresh with messageNum := messages.length }) ∧
    (0 < lv →
      (bhe_init bheFresh messages lv).length = lv.toNat - 1 ∧
      (bhe_init bheFresh messages lv).width =
        (bheFmax messages : ℚ) /
          ((messages.length : ℚ) * (2 : ℚ) ^ (lv.toNat - 1)) ∧
      (∀ m ∈ messages, messages.count m ≤ bheFmax messages) ∧
      (∃ m ∈ messages, messages.count m = bheFmax messages) ∧
      ∀ m ∈ messages,
        bhe_encode_all (bhe_init bheFresh messages lv) m =
          some ((List.range ((Int.ceil ((messages.count m : ℚ) /
              ((bhe_init bheFresh messages lv).width *
                (messages.length : ℚ)))).toNat)).map
            (fun tag => encoder_token m tag))) := by
  constructor
  · intro hlv
    have h0 : lv.toNat = 0 := Int.toNat_eq_zero.mpr hlv
    unfold bhe_init
    rw [if_neg hne]
    simp [h0]
  · intro hlv
    have h0 : lv.toNat ≠ 0 := by
      have := Int.toNat_of_nonneg (le_of_lt hlv)
      omega
    have hinit : bhe_init bheFresh messages lv =
        { length := lv.toNat - 1,
          width := (bheFmax messages : ℚ) /
            ((messages.length : ℚ) * (2 : ℚ) ^ (lv.toNat - 1)),
          table := (build_histogram messages).map (fun p => (p.1, (p.2, []))),
          messageNum := messages.length } := by
      unfold bhe_init
      rw [if_neg hne]
      simp only [if_neg h0]
    refine ⟨by rw [hinit], by rw [hinit], fun m hm => bheFmax_ge hm,
      bheFmax_attained hne, ?_⟩
    intro m hm
    have htab : lookupA (bhe_init bheFresh messages lv).table m =
        some (messages.count m, ([] : List Nat)) := by
      rw [hinit]
      show lookupA ((build_histogram messages).map
        (fun p => (p.1, (p.2, ([] : List Nat))))) m = _
      rw [lookupA_map_pair (fun c => (c, ([] : List Nat)))]
      rw [build_histogram_lookup, if_pos hm]
      rfl
    have hnum : (bhe_init bheFresh messages lv).messageNum =
        messages.length := by rw [hinit]
    rw [bhe_encode_all, htab, hnum]
    rfl

/-- Witness for C9 at the concrete sample [[7],[7],[8],[8]] with advantage
1/2: here lv = 1 (proved from pi bounds), the band length is 0, the width
is 1/2, and encode_all on [7] yields the single token with tag 0. -/
theorem c9_bhe_init_encode_witness :
    bhe_encode_all (bhe_init bheFresh [[7], [7], [8], [8]] 1) [7] =
      some [encoder_token [7] 0] := by
  have hspec : bheLSpec [[7], [7], [8], [8]] (1 / 2) 1 := by
    unfold bheLSpec
    have hlen : (([[7], [7], [8], [8]] : List Bytes).length : ℝ) = 4 := by
      norm_num
    rw [hlen]
    have harg : ((2 : ℝ) * (1 / 2)) ^ 2 * Real.pi = Real.pi := by norm_num
    rw [harg]
    have hpi : (0 : ℝ) < Real.pi := Real.pi_pos
    have hx1 : 1 < 4 / Real.pi := by
      rw [one_lt_div hpi]
      exact Real.pi_lt_four
    have hx2 : 4 / Real.pi ≤ 2 := by
      rw [div_le_iff hpi]
      nlinarith [Real.pi_gt_three]
    symm
    rw [Int.ceil_eq_iff]
    constructor
    · push_cast
      simpa using Real.logb_pos (by norm_num) hx1
    · push_cast
      refine (Real.logb_le_iff_le_rpow (by norm_num) (by positivity)).mpr ?_
      rw [Real.rpow_one]
      exact hx2
  have h := (c9_bhe_init_encode [[7], [7], [8], [8]] (1 / 2) 1
    (by decide) hspec).2 (by norm_num)
  obtain ⟨_, _, _, _, henc⟩ := h
  have h7 := henc [7] (by decide)
  rw [h7]
  decide
